import Mathlib

/-!
Verification development for the wall-time capture pipeline of the
benchmark-execution orchestrator: symbol extraction, perf-stream parsing,
the module index, path-key assignment, JIT-dump ingestion, the versioned
unwind codec, and the artifact writer's file/ error behaviour.

Shallow embedding conventions:
* machine integers (`u64`, `usize`, `pid_t`) are modelled as `Nat` / `Int`;
  no claim below depends on wrap-around behaviour;
* file-system reads (ELF contents, the perf capture, JIT dumps) are oracles:
  explicit function parameters supplying what the corresponding `std::fs`
  call would have produced;
* fallible Rust functions returning `anyhow::Result` are modelled with
  `Option` / `Except`.
-/

namespace Codspeed

/-! ### Symbols (`module_symbols.rs`) -/

/-- Rust `Symbol { addr, size, name }` from `module_symbols.rs`. -/
structure Symbol where
  addr : Nat
  size : Nat
  name : String
deriving DecidableEq, Repr

/-- Rust `ModuleSymbols { symbols: Vec<Symbol> }` from `module_symbols.rs`. -/
structure ModuleSymbols where
  symbols : List Symbol
deriving DecidableEq, Repr

/-- The ARM ELF "mapping symbol" test of `ModuleSymbols::from_elf`:
`[b'$', b'a'|b'd'|b't'|b'x', rest @ ..]` with `rest` empty or starting with
`"."`. -/
def isArmMappingSymbol (name : String) : Bool :=
  match name.toList with
  | '$' :: c :: rest =>
    (c = 'a' || c = 'd' || c = 't' || c = 'x')
      && (rest.isEmpty || rest.head? = some '.')
  | _ => false

/-- The `retain` predicate of `ModuleSymbols::from_elf`: drop empty names and
ARM mapping symbols. -/
def retainSymbol (s : Symbol) : Bool :=
  !s.name.isEmpty && !isArmMappingSymbol s.name

/-- Address order used by `symbols.sort_by_key(|symbol| symbol.addr)`. -/
def symbolLE (a b : Symbol) : Prop := a.addr ≤ b.addr

instance : DecidableRel symbolLE := fun a b => Nat.decLe a.addr b.addr

instance : IsTotal Symbol symbolLE := ⟨fun a b => Nat.le_total a.addr b.addr⟩

instance : IsTrans Symbol symbolLE := ⟨fun _ _ _ h h' => Nat.le_trans h h'⟩

/-- Rust `sort_by_key(|symbol| symbol.addr)`: a stable sort by address (Rust's
stable `sort_by_key` and insertion sort agree extensionally). -/
def sortByAddr (l : List Symbol) : List Symbol :=
  l.insertionSort symbolLE

/-- Rust `addr.next_multiple_of(4096)` on the `u64` address. -/
def nextMultipleOf4096 (n : Nat) : Nat :=
  ((n + 4095) / 4096) * 4096

/-- Size given to a zero-sized last symbol:
`roundup(addr, 4096) + 4096 - addr` (the `end_addr.saturating_sub(addr)` of
`from_elf`; `Nat` subtraction is saturating). -/
def lastSymbolExtension (addr : Nat) : Nat :=
  nextMultipleOf4096 addr + 4096 - addr

/-- The zero-size extension loop of `ModuleSymbols::from_elf`.  The Rust loop
mutates only `size` fields, and reads only the (unmutated) `addr` of the
next element, so it is equivalent to this one-pass recursion. -/
def extendZeros : List Symbol → List Symbol
  | [] => []
  | [s] =>
    if s.size = 0 then [{ s with size := lastSymbolExtension s.addr }] else [s]
  | s :: t :: rest =>
    (if s.size = 0 then { s with size := t.addr - s.addr } else s)
      :: extendZeros (t :: rest)

/-- The pure part of `ModuleSymbols::from_elf` (everything after the two
symbol tables have been read): retain-filter, sort, zero-size extension,
drop still-zero-sized symbols, error on empty.  `raw` is the concatenation
of the static and dynamic symbol-table entries that had readable names. -/
def fromElfCore (raw : List Symbol) : Option ModuleSymbols :=
  let retained := raw.filter retainSymbol
  let sorted := sortByAddr retained
  let extended := extendZeros sorted
  let final := extended.filter (fun s => 0 < s.size)
  if final.isEmpty then none else some ⟨final⟩

theorem length_extendZeros (l : List Symbol) : (extendZeros l).length = l.length := by
  induction l with
  | nil => rfl
  | cons s tail ih =>
    cases tail with
    | nil => by_cases h : s.size = 0 <;> simp [extendZeros, h]
    | cons t rest =>
      simp only [extendZeros, List.length_cons] at ih ⊢
      omega

/-- Pointwise description of the zero-size extension loop: addresses and
names are untouched; a zero size becomes the gap to the next symbol's
address, or the page-rounding extension for the last symbol. -/
theorem extendZeros_get (l : List Symbol) (i : Nat) (h : i < l.length)
    (h2 : i < (extendZeros l).length) :
    ((extendZeros l).get ⟨i, h2⟩).addr = (l.get ⟨i, h⟩).addr ∧
    ((extendZeros l).get ⟨i, h2⟩).name = (l.get ⟨i, h⟩).name ∧
    ((extendZeros l).get ⟨i, h2⟩).size =
      (if (l.get ⟨i, h⟩).size = 0 then
        (match l.get? (i + 1) with
         | some t => t.addr - (l.get ⟨i, h⟩).addr
         | none => lastSymbolExtension (l.get ⟨i, h⟩).addr)
       else (l.get ⟨i, h⟩).size) := by
  induction l generalizing i with
  | nil => simp at h
  | cons s tail ih =>
    cases tail with
    | nil =>
      cases i with
      | zero => by_cases hs : s.size = 0 <;> simp [extendZeros, hs]
      | succ j => simp at h
    | cons t rest =>
      cases i with
      | zero =>
        by_cases hs : s.size = 0 <;> simp [extendZeros, hs]
      | succ j =>
        have hj : j < (t :: rest).length := by simpa using h
        have hj2 : j < (extendZeros (t :: rest)).length := by
          rw [length_extendZeros]; exact hj
        have := ih j hj hj2
        simpa [extendZeros] using this

theorem extendZeros_mem_name (l : List Symbol) (x : Symbol)
    (hx : x ∈ extendZeros l) : ∃ y ∈ l, x.name = y.name := by
  obtain ⟨⟨i, h2⟩, rfl⟩ := List.mem_iff_get.mp hx
  have h : i < l.length := by rwa [length_extendZeros] at h2
  exact ⟨l.get ⟨i, h⟩, List.get_mem .., (extendZeros_get l i h h2).2.1⟩

theorem sorted_extendZeros (l : List Symbol) (hl : List.Sorted symbolLE l) :
    List.Sorted symbolLE (extendZeros l) := by
  rw [List.Sorted, List.pairwise_iff_get] at hl ⊢
  intro i j hij
  have hlen := length_extendZeros l
  have hi : (i : Nat) < l.length := by have := i.isLt; omega
  have hj : (j : Nat) < l.length := by have := j.isLt; omega
  have e1 := (extendZeros_get l i hi i.isLt).1
  have e2 := (extendZeros_get l j hj j.isLt).1
  have hspec := hl ⟨i, hi⟩ ⟨j, hj⟩ hij
  simp only [symbolLE, List.get_eq_getElem] at e1 e2 hspec ⊢
  omega

/-- C6 (amended): every symbol surviving `from_elf` has a non-empty name
and positive size, the sequence is sorted by address, and the zero-size
extension rule is the one implemented (next symbol's address, or the
next 4096-boundary-plus-4096 for the last symbol).  Overlaps between
symbols are not removed. -/
theorem fromElfCore_wf (raw : List Symbol) (ms : ModuleSymbols)
    (h : fromElfCore raw = some ms) :
    (∀ s ∈ ms.symbols, s.name ≠ "" ∧ 0 < s.size) ∧
    List.Sorted symbolLE ms.symbols ∧
    (∀ i (hi : i < (sortByAddr (raw.filter retainSymbol)).length)
       (hi2 : i < (extendZeros (sortByAddr (raw.filter retainSymbol))).length),
       ((sortByAddr (raw.filter retainSymbol)).get ⟨i, hi⟩).size = 0 →
       ((extendZeros (sortByAddr (raw.filter retainSymbol))).get ⟨i, hi2⟩).size =
         (match (sortByAddr (raw.filter retainSymbol)).get? (i + 1) with
          | some t => t.addr - ((sortByAddr (raw.filter retainSymbol)).get ⟨i, hi⟩).addr
          | none =>
            lastSymbolExtension ((sortByAddr (raw.filter retainSymbol)).get ⟨i, hi⟩).addr)) := by
  have hms : ms.symbols =
      (extendZeros (sortByAddr (raw.filter retainSymbol))).filter (fun s => 0 < s.size) := by
    unfold fromElfCore at h
    by_cases hempty :
        ((extendZeros (sortByAddr (raw.filter retainSymbol))).filter
          (fun s => 0 < s.size)).isEmpty
    · simp [hempty] at h
    · simp [hempty] at h
      exact (congrArg ModuleSymbols.symbols h).symm
  refine ⟨?_, ?_, ?_⟩
  · intro s hs
    rw [hms, List.mem_filter] at hs
    obtain ⟨hmem, hpos⟩ := hs
    refine ⟨?_, by simpa using hpos⟩
    obtain ⟨y, hy, hname⟩ := extendZeros_mem_name _ _ hmem
    have hy' : y ∈ raw.filter retainSymbol := by
      have hperm := List.perm_insertionSort symbolLE (raw.filter retainSymbol)
      exact hperm.mem_iff.mp (by simpa [sortByAddr] using hy)
    have hret : retainSymbol y = true := (List.mem_filter.mp hy').2
    rw [hname]
    intro hcontra
    simp [retainSymbol, hcontra] at hret
    exact absurd hret.1 (by decide)
  · rw [hms]
    have hsorted : List.Sorted symbolLE (sortByAddr (raw.filter retainSymbol)) :=
      List.sorted_insertionSort symbolLE (raw.filter retainSymbol)
    exact List.Pairwise.sublist (List.filter_sublist _) (sorted_extendZeros _ hsorted)
  · intro i hi hi2 hzero
    have := (extendZeros_get (sortByAddr (raw.filter retainSymbol)) i hi hi2).2.2
    rw [this, if_pos hzero]

/-- C6 counterexample: the claim's "no two symbols overlap after zero-size
extension" is false — `from_elf` keeps overlapping positive-sized symbols
(e.g. aliases or nested symbols) untouched. -/
theorem fromElfCore_overlap_counterexample :
    fromElfCore [⟨0, 10, "a"⟩, ⟨5, 10, "b"⟩] =
      some ⟨[⟨0, 10, "a"⟩, ⟨5, 10, "b"⟩]⟩ ∧
    ∃ s1 ∈ [Symbol.mk 0 10 "a", Symbol.mk 5 10 "b"],
      ∃ s2 ∈ [Symbol.mk 0 10 "a", Symbol.mk 5 10 "b"],
        s1.addr ≤ s2.addr ∧ s1 ≠ s2 ∧ s2.addr < s1.addr + s1.size := by
  decide

/-- Witness for `fromElfCore_wf` at a concrete input: a zero-sized first
symbol and a last symbol, exercising both extension branches. -/
theorem fromElfCore_wf_witness :
    (∀ s ∈ (ModuleSymbols.mk [⟨16, 32, "f"⟩, ⟨48, 8144, "g"⟩]).symbols,
       s.name ≠ "" ∧ 0 < s.size) ∧
    List.Sorted symbolLE (ModuleSymbols.mk [⟨16, 32, "f"⟩, ⟨48, 8144, "g"⟩]).symbols := by
  have h : fromElfCore [⟨16, 0, "f"⟩, ⟨48, 0, "g"⟩] =
      some ⟨[⟨16, 32, "f"⟩, ⟨48, 8144, "g"⟩]⟩ := by decide
  have := fromElfCore_wf [⟨16, 0, "f"⟩, ⟨48, 0, "g"⟩] ⟨[⟨16, 32, "f"⟩, ⟨48, 8144, "g"⟩]⟩ h
  exact ⟨this.1, this.2.1⟩

/-! ### Path keys (`naming.rs`, `save_artifacts.rs`) -/

/-- Little-endian decimal digits of `n` (least significant first), with
explicit fuel so the definition is structural and kernel-evaluable.
`digitsRevAux (n+1) n` always has enough fuel. -/
def digitsRevAux : Nat → Nat → List Nat
  | 0, _ => []
  | fuel + 1, n => if n < 10 then [n] else n % 10 :: digitsRevAux fuel (n / 10)

def digitsRev (n : Nat) : List Nat := digitsRevAux (n + 1) n

/-- Value of a least-significant-first digit list. -/
def ofDigitsRev : List Nat → Nat
  | [] => 0
  | d :: ds => d + 10 * ofDigitsRev ds

theorem ofDigitsRev_digitsRevAux (fuel : Nat) :
    ∀ n, n < 10 ^ fuel → ofDigitsRev (digitsRevAux fuel n) = n := by
  induction fuel with
  | zero => intro n h; interval_cases n; rfl
  | succ fuel ih =>
    intro n h
    by_cases hn : n < 10
    · simp [digitsRevAux, hn, ofDigitsRev]
    · have hdiv : n / 10 < 10 ^ fuel := by
        rw [Nat.div_lt_iff_lt_mul (by norm_num)]
        calc n < 10 ^ (fuel + 1) := h
        _ = 10 ^ fuel * 10 := by ring
      have := ih (n / 10) hdiv
      simp only [digitsRevAux, if_neg hn, ofDigitsRev, this]
      omega

theorem ofDigitsRev_digitsRev (n : Nat) : ofDigitsRev (digitsRev n) = n := by
  apply ofDigitsRev_digitsRevAux
  calc n < 10 ^ n := Nat.lt_pow_self (by norm_num) n
  _ ≤ 10 ^ (n + 1) := Nat.pow_le_pow_right (by norm_num) (Nat.le_succ n)

theorem digitsRevAux_lt10 (fuel : Nat) :
    ∀ n d, d ∈ digitsRevAux fuel n → d < 10 := by
  induction fuel with
  | zero => intro n d h; simp [digitsRevAux] at h
  | succ fuel ih =>
    intro n d h
    by_cases hn : n < 10
    · simp [digitsRevAux, hn] at h; omega
    · simp only [digitsRevAux, if_neg hn, List.mem_cons] at h
      rcases h with h | h
      · omega
      · exact ih _ _ h

/-- Decimal rendering of a `usize`, modelling Rust's `format!("{index}")`. -/
def natDecimal (n : Nat) : String :=
  String.mk ((digitsRev n).reverse.map Nat.digitChar)

/-- Model of `Path::file_name().unwrap_or_default().to_string_lossy()` for
ordinary `/`-separated paths: the characters after the last `/`. -/
def fileName (path : String) : String :=
  String.mk ((path.toList.reverse.takeWhile (fun c => !(c = '/'))).reverse)

/-- Rust `naming::indexed_semantic_key(index, path)`:
`format!("{index}__{}", path.file_name()...)`. -/
def mkKey (index : Nat) (path : String) : String :=
  natDecimal index ++ "__" ++ fileName path

def charDigitVal (c : Char) : Nat := c.toNat - 48

/-- Recover the index from a key: digits before the first `'_'`. -/
def parseKeyIndex (s : String) : Nat :=
  ofDigitsRev (((s.toList.takeWhile (fun c => !(c = '_'))).map charDigitVal).reverse)

theorem digitChar_ne_underscore {d : Nat} (h : d < 10) :
    Nat.digitChar d ≠ '_' := by
  interval_cases d <;> decide

theorem charDigitVal_digitChar {d : Nat} (h : d < 10) :
    charDigitVal (Nat.digitChar d) = d := by
  interval_cases d <;> decide

theorem takeWhile_all_append_stop {α} (p : α → Bool) (xs : List α) (y : α)
    (t : List α) (hxs : ∀ x ∈ xs, p x = true) (hy : p y = false) :
    (xs ++ y :: t).takeWhile p = xs := by
  induction xs with
  | nil => simp [List.takeWhile_cons, hy]
  | cons a l ih =>
    have ha : p a = true := hxs a (by simp)
    simp only [List.cons_append, List.takeWhile_cons, ha, if_true]
    rw [ih (fun x hx => hxs x (by simp [hx]))]

theorem parseKeyIndex_mkKey (i : Nat) (path : String) :
    parseKeyIndex (mkKey i path) = i := by
  have hdata : (mkKey i path).toList =
      ((digitsRev i).reverse.map Nat.digitChar) ++
        ('_' :: '_' :: (fileName path).toList) := by
    show (mkKey i path).data = _
    simp [mkKey, String.data_append, natDecimal]
  have hdigits : ∀ c ∈ (digitsRev i).reverse.map Nat.digitChar,
      (fun c => !(c = '_')) c = true := by
    intro c hc
    obtain ⟨d, hd, rfl⟩ := List.mem_map.mp hc
    have : d < 10 := digitsRevAux_lt10 _ _ _ (List.mem_reverse.mp hd)
    simpa using digitChar_ne_underscore this
  unfold parseKeyIndex
  rw [hdata, takeWhile_all_append_stop _ _ _ _ hdigits (by decide)]
  rw [List.map_map]
  have hmap : ((digitsRev i).reverse.map (charDigitVal ∘ Nat.digitChar)) =
      (digitsRev i).reverse := by
    have hpt : ∀ d ∈ (digitsRev i).reverse,
        (charDigitVal ∘ Nat.digitChar) d = id d := fun d hd =>
      charDigitVal_digitChar (digitsRevAux_lt10 _ _ _ (List.mem_reverse.mp hd))
    rw [List.map_congr_left hpt, List.map_id]
  rw [hmap, List.reverse_reverse, ofDigitsRev_digitsRev]

/-- Keys with different indices are different strings: the decimal index is
recoverable from the key. -/
theorem mkKey_index_inj {i j : Nat} {p q : String} (h : mkKey i p = mkKey j q) :
    i = j := by
  have := congrArg parseKeyIndex h
  rwa [parseKeyIndex_mkKey, parseKeyIndex_mkKey] at this

/-- The `path_to_key` map of `save_artifacts`, as an association list in
insertion order (`HashMap` content plus the insertion history; `len()` is
`length`). -/
def lookupKey (st : List (String × String)) (p : String) : Option String :=
  (st.find? (fun e => e.1 = p)).map (·.2)

/-- Rust `get_or_insert_key`: return the cached key, or assign
`indexed_semantic_key(path_to_key.len(), path)` and insert. -/
def getOrInsertKey (st : List (String × String)) (p : String) :
    String × List (String × String) :=
  match lookupKey st p with
  | some k => (k, st)
  | none => (mkKey st.length p, st ++ [(p, mkKey st.length p)])

/-- Rust `register_paths`: fold `get_or_insert_key` over a sequence of paths (the
iteration order of `loaded_modules_by_path.keys()`). -/
def registerPaths (st : List (String × String)) (paths : List String) :
    List (String × String) :=
  paths.foldl (fun s p => (getOrInsertKey s p).2) st

/-- Invariant of the key table: the `i`-th inserted path got index `i`. -/
def keyStateWF (st : List (String × String)) : Prop :=
  ∀ i (h : i < st.length), (st.get ⟨i, h⟩).2 = mkKey i (st.get ⟨i, h⟩).1

theorem keyStateWF_nil : keyStateWF [] := by
  intro i h; simp at h

theorem keyStateWF_getOrInsert (st : List (String × String)) (p : String)
    (hwf : keyStateWF st) : keyStateWF (getOrInsertKey st p).2 := by
  unfold getOrInsertKey
  cases hfind : lookupKey st p with
  | some k => exact hwf
  | none =>
    intro i h
    have hlt : i < st.length + 1 := by simpa using h
    by_cases hi : i < st.length
    · have e : ((st ++ [(p, mkKey st.length p)]).get ⟨i, h⟩) = st.get ⟨i, hi⟩ := by
        simp only [List.get_eq_getElem]
        exact List.getElem_append_left hi
      rw [e]; exact hwf i hi
    · have hieq : i = st.length := by omega
      subst hieq
      have e : ((st ++ [(p, mkKey st.length p)]).get ⟨st.length, h⟩) =
          (p, mkKey st.length p) := by
        simp only [List.get_eq_getElem]
        exact List.getElem_concat_length st _ _ rfl h
      rw [e]

theorem keyStateWF_registerPaths (st : List (String × String))
    (paths : List String) (hwf : keyStateWF st) :
    keyStateWF (registerPaths st paths) := by
  induction paths generalizing st with
  | nil => exact hwf
  | cons p rest ih =>
    exact ih _ (keyStateWF_getOrInsert st p hwf)

/-- A cached key survives any later `get_or_insert_key`. -/
theorem lookupKey_getOrInsert_mono (st : List (String × String)) (p q : String)
    (k : String) (h : lookupKey st p = some k) :
    lookupKey (getOrInsertKey st q).2 p = some k := by
  unfold getOrInsertKey
  cases hq : lookupKey st q with
  | some k2 => exact h
  | none =>
    unfold lookupKey at h ⊢
    cases hf : st.find? (fun e => e.1 = p) with
    | none => simp [hf] at h
    | some e =>
      rw [List.find?_append, hf]
      simpa [hf] using h

theorem lookupKey_registerPaths_mono (st : List (String × String))
    (paths : List String) (p : String) (k : String)
    (h : lookupKey st p = some k) :
    lookupKey (registerPaths st paths) p = some k := by
  induction paths generalizing st with
  | nil => exact h
  | cons q rest ih => exact ih _ (lookupKey_getOrInsert_mono st p q k h)

/-- After a fresh insertion the key is found. -/
theorem lookupKey_after_insert (st : List (String × String)) (p : String)
    (h : lookupKey st p = none) :
    lookupKey (st ++ [(p, mkKey st.length p)]) p = some (mkKey st.length p) := by
  unfold lookupKey at h ⊢
  cases hf : st.find? (fun e => e.1 = p) with
  | some e => simp [hf] at h
  | none => simp [List.find?_append, hf]

/-- C8: every key has the form `<index>__<basename>` with the index equal to
the insertion position (monotonically assigned); distinct registered paths
get distinct keys; registering a path twice yields the same key. -/
theorem pathKey_scheme (paths : List String) :
    (∀ i (hi : i < (registerPaths [] paths).length),
       ((registerPaths [] paths).get ⟨i, hi⟩).2 =
         mkKey i ((registerPaths [] paths).get ⟨i, hi⟩).1) ∧
    (∀ i j (hi : i < (registerPaths [] paths).length)
       (hj : j < (registerPaths [] paths).length), i ≠ j →
       ((registerPaths [] paths).get ⟨i, hi⟩).2 ≠
         ((registerPaths [] paths).get ⟨j, hj⟩).2) ∧
    (∀ (st : List (String × String)) (p : String),
       (getOrInsertKey (getOrInsertKey st p).2 p).1 = (getOrInsertKey st p).1) := by
  have hwf := keyStateWF_registerPaths [] paths keyStateWF_nil
  refine ⟨hwf, ?_, ?_⟩
  · intro i j hi hj hne heq
    rw [hwf i hi, hwf j hj] at heq
    exact hne (mkKey_index_inj heq)
  · intro st p
    unfold getOrInsertKey
    cases hfind : lookupKey st p with
    | some k => simp [hfind]
    | none => simp [lookupKey_after_insert st p hfind]

/-- Witness for `pathKey_scheme`: two concrete paths get the distinct keys
`0__a.so` and `1__b.so`. -/
theorem pathKey_scheme_witness :
    ((registerPaths [] ["/lib/a.so", "/opt/b.so"]).get ⟨0, by decide⟩).2 ≠
      ((registerPaths [] ["/lib/a.so", "/opt/b.so"]).get ⟨1, by decide⟩).2 :=
  (pathKey_scheme ["/lib/a.so", "/opt/b.so"]).2.1 0 1 (by decide) (by decide)
    (by decide)

theorem registerPaths_fresh_lookup (order : List String) :
    ∀ (st : List (String × String)), order.Nodup →
      (∀ p ∈ order, lookupKey st p = none) →
      ∀ i (hi : i < order.length),
        lookupKey (registerPaths st order) (order.get ⟨i, hi⟩) =
          some (mkKey (st.length + i) (order.get ⟨i, hi⟩)) := by
  induction order with
  | nil => intro st _ _ i hi; simp at hi
  | cons q rest ih =>
    intro st hn hfresh i hi
    have hq : lookupKey st q = none := hfresh q (by simp)
    have hstep : (getOrInsertKey st q).2 = st ++ [(q, mkKey st.length q)] := by
      unfold getOrInsertKey; rw [hq]
    cases i with
    | zero =>
      have hlook : lookupKey (getOrInsertKey st q).2 q = some (mkKey st.length q) := by
        rw [hstep]; exact lookupKey_after_insert st q hq
      have := lookupKey_registerPaths_mono _ rest q _ hlook
      simpa [registerPaths] using this
    | succ k =>
      have hk : k < rest.length := by simpa using hi
      have hn2 : rest.Nodup := (List.nodup_cons.mp hn).2
      have hqmem : q ∉ rest := (List.nodup_cons.mp hn).1
      have hfresh2 : ∀ p ∈ rest, lookupKey (getOrInsertKey st q).2 p = none := by
        intro p hp
        rw [hstep]
        have hpq : q ≠ p := fun h => hqmem (h ▸ hp)
        have hnone : lookupKey st p = none := hfresh p (by simp [hp])
        unfold lookupKey at hnone ⊢
        cases hf : st.find? (fun e => e.1 = p) with
        | some e => simp [hf] at hnone
        | none => simp [List.find?_append, hf, hpq]
      have := ih (getOrInsertKey st q).2 hn2 hfresh2 k hk
      have hlen : (getOrInsertKey st q).2.length = st.length + 1 := by
        rw [hstep]; simp
      rw [hlen] at this
      have harith : st.length + 1 + k = st.length + (k + 1) := by omega
      rw [harith] at this
      simpa [registerPaths] using this

/-- C4 (amended): key assignment is a deterministic function of the
iteration order of the module-index map — the `i`-th path in the order the
writer iterates receives key `<i>__<basename>`.  (The insertion order alone
does not determine keys, because the map is a randomized-iteration-order
`HashMap`.) -/
theorem registerPaths_keys_from_iteration_order (order : List String)
    (hn : order.Nodup) (i : Nat) (hi : i < order.length) :
    lookupKey (registerPaths [] order) (order.get ⟨i, hi⟩) =
      some (mkKey i (order.get ⟨i, hi⟩)) := by
  have := registerPaths_fresh_lookup order [] hn (fun p _ => rfl) i hi
  simpa using this

/-- Witness for `registerPaths_keys_from_iteration_order`. -/
theorem registerPaths_keys_from_iteration_order_witness :
    lookupKey (registerPaths [] ["/lib/a.so", "/opt/b.so"])
        (["/lib/a.so", "/opt/b.so"].get ⟨1, by decide⟩) =
      some (mkKey 1 (["/lib/a.so", "/opt/b.so"].get ⟨1, by decide⟩)) :=
  registerPaths_keys_from_iteration_order ["/lib/a.so", "/opt/b.so"]
    (by decide) 1 (by decide)

/-- C4 counterexample: two iteration orders of the same two-path module
index (both permutations of the same insertion order) assign different keys
to the path `"a"`, so insertion order alone does not make key assignment
deterministic. -/
theorem registerPaths_iteration_order_counterexample :
    (["b", "a"] : List String).Perm ["a", "b"] ∧
    lookupKey (registerPaths [] ["a", "b"]) "a" ≠
      lookupKey (registerPaths [] ["b", "a"]) "a" := by
  decide

/-! ### Unwind data shapes (`runner-shared/src/unwind_data.rs`, as used by
`jit_dump.rs` / `parse_perf_file.rs`) -/

/-- Per-process overlay `ProcessUnwindData { timestamp, avma_range,
base_avma }`.  The `Range<u64>` is a `(start, end)` pair. -/
structure ProcessUnwindData where
  timestamp : Option Nat
  avmaRange : Nat × Nat
  baseAvma : Nat
deriving DecidableEq, Repr

/-- Pid-agnostic module-level unwind data, the shape constructed in
`jit_dump.rs` and stored in `LoadedModule` (fields of `UnwindDataV3`). -/
structure UnwindData where
  path : String
  baseSvma : Nat
  ehFrameHdr : List Nat
  ehFrameHdrSvma : Nat × Nat
  ehFrame : List Nat
  ehFrameSvma : Nat × Nat
deriving DecidableEq, Repr

/-! ### Perf-stream parsing (`parse_perf_file.rs`) -/

/-- Rust `ProcessLoadedModule` (both fields default to `None`). -/
structure ProcessLoadedModule where
  symbolsLoadBias : Option Nat := none
  processUnwindData : Option ProcessUnwindData := none
deriving DecidableEq, Repr

/-- Rust `LoadedModule` (all fields default to empty). The per-PID map is an
association list in insertion order. -/
structure LoadedModule where
  moduleSymbols : Option ModuleSymbols := none
  unwindData : Option UnwindData := none
  processLoadedModules : List (Int × ProcessLoadedModule) := []
deriving DecidableEq, Repr

/-- Association-list lookup, modelling `HashMap::get`. -/
def alookup {α β : Type} [DecidableEq α] (m : List (α × β)) (k : α) :
    Option β :=
  (m.find? (fun e => e.1 = k)).map (·.2)

/-- Association-list insert/replace, modelling `HashMap::insert` (used for
writing back the record obtained from `entry().or_default()`). -/
def aupsert {α β : Type} [DecidableEq α] (m : List (α × β)) (k : α) (v : β) :
    List (α × β) :=
  match m with
  | [] => [(k, v)]
  | e :: rest => if e.1 = k then (k, v) :: rest else e :: aupsert rest k v

/-- The file-system/ELF oracle: what `std::fs::read` + the `object` crate
would return for a path during this run.  `elfRawSymbols` is the raw
static+dynamic symbol-table content (`none` = unreadable ELF);
`computeLoadBias` models `ModuleSymbols::compute_load_bias`
(`elf_helper::compute_load_bias`, not part of the sources under
verification); `unwindFromElf` models `unwind_data_from_elf`. -/
structure ElfOracle where
  computeLoadBias : String → Nat → Nat → Nat → Option Nat
  elfRawSymbols : String → Option (List Symbol)
  unwindFromElf : String → Nat → Nat → Option Nat → Nat →
    Option (UnwindData × ProcessUnwindData)

/-- Rust `ModuleSymbols::from_elf`: read the symbol tables, then run the pure
pipeline. -/
def fromElf (o : ElfOracle) (path : String) : Option ModuleSymbols :=
  (o.elfRawSymbols path).bind fromElfCore

/-- A record of the perf capture, after the raw-record type dispatch of
`parse_for_memmap2`.  Records that fail to parse, and record types other
than FORK/MMAP2, are all skipped by the source loop and are collapsed into
`other`. -/
inductive PerfRecord
  | fork (ppid pid : Int)
  | mmap2 (pid : Int) (address length pageOffset protection : Nat)
      (path : String)
  | other
deriving DecidableEq, Repr

/-- Rust `libc::PROT_EXEC`. -/
def PROT_EXEC : Nat := 4

/-- Rust `path_slice.first() == Some(&b'[') && path_slice.last() == Some(&b']')`. -/
def isSpecialMapping (path : String) : Bool :=
  path.toList.head? = some '[' && path.toList.getLast? = some ']'

/-- Parser state: the module index plus instrumentation recording each
invocation of `ModuleSymbols::from_elf` and `unwind_data_from_elf` (one
list entry per call, tagged by path). -/
structure ParseState where
  index : List (String × LoadedModule)
  symbolsCalls : List String
  unwindCalls : List String
deriving DecidableEq, Repr

def initialParseState : ParseState := ⟨[], [], []⟩

/-- Rust `process_mmap2_record`.  Mirrors the source's order: PROT_EXEC check,
`//anon` check, `[...]` check, load-bias computation (failure → return),
`entry().or_default()` for module and per-PID entry, symbol extraction
gated on `module_symbols.is_none()`, unconditional store of the load bias,
unconditional unwind-data extraction. -/
def processMmap2Record (o : ElfOracle) (pid : Int)
    (address length pageOffset protection : Nat) (path : String)
    (st : ParseState) : ParseState :=
  if protection.land PROT_EXEC = 0 then st
  else if path = "//anon" then st
  else if isSpecialMapping path then st
  else
    let endAddr := address + length
    match o.computeLoadBias path address endAddr pageOffset with
    | none => st
    | some loadBias =>
      let lm := (alookup st.index path).getD {}
      let plm := (alookup lm.processLoadedModules pid).getD {}
      let symRes : Option ModuleSymbols × List String :=
        if lm.moduleSymbols.isNone then
          ((match fromElf o path with
            | some s => some s
            | none => lm.moduleSymbols), [path])
        else (lm.moduleSymbols, [])
      let lm' := { lm with moduleSymbols := symRes.1 }
      let plm' := { plm with symbolsLoadBias := some loadBias }
      let res :=
        match o.unwindFromElf path address endAddr none loadBias with
        | some (ud, pud) =>
          ({ lm' with unwindData := some ud },
           { plm' with processUnwindData := some pud })
        | none => (lm', plm')
      let newPlms := aupsert lm.processLoadedModules pid res.2
      { index := aupsert st.index path
          { res.1 with processLoadedModules := newPlms },
        symbolsCalls := st.symbolsCalls ++ symRes.2,
        unwindCalls := st.unwindCalls ++ [path] }

/-- Rust `PidFilter`. -/
inductive PidFilter
  | all
  | trackedPids (pids : Finset Int)
deriving DecidableEq

/-- Rust `PidFilter::should_include`. -/
def PidFilter.shouldInclude : PidFilter → Int → Bool
  | .all, _ => true
  | .trackedPids s, pid => pid ∈ s

/-- Rust `PidFilter::add_child_if_parent_tracked` (state change only; the
returned bool is used for logging). -/
def PidFilter.addChildIfParentTracked : PidFilter → Int → Int → PidFilter
  | .all, _, _ => .all
  | .trackedPids s, ppid, pid =>
    if ppid ∈ s then .trackedPids (insert pid s) else .trackedPids s

/-- One iteration of the `while let Some(record) = ...` loop of
`parse_for_memmap2`. -/
def parseStep (o : ElfOracle) (acc : ParseState × PidFilter)
    (r : PerfRecord) : ParseState × PidFilter :=
  match r with
  | .fork ppid pid => (acc.1, acc.2.addChildIfParentTracked ppid pid)
  | .mmap2 pid address length pageOffset protection path =>
    if acc.2.shouldInclude pid then
      (processMmap2Record o pid address length pageOffset protection path
        acc.1, acc.2)
    else acc
  | .other => acc

/-- The whole record loop. -/
def parseRun (o : ElfOracle) (records : List PerfRecord) (f : PidFilter) :
    ParseState × PidFilter :=
  records.foldl (parseStep o) (initialParseState, f)

def modulePids (lm : LoadedModule) : List Int :=
  lm.processLoadedModules.map (·.1)

/-- The `PidFilter::All` arm of the final `tracked_pids` computation:
`loaded_modules_by_path.iter().flat_map(|(_, l)| l.pids()).collect()`. -/
def indexPids (index : List (String × LoadedModule)) : Finset Int :=
  index.foldl (fun acc e => acc ∪ (modulePids e.2).toFinset) ∅

structure MemmapRecordsOutput where
  loadedModulesByPath : List (String × LoadedModule)
  trackedPids : Finset Int
deriving DecidableEq

/-- Rust `parse_for_memmap2` on an already-decoded record stream. -/
def parseForMemmap2 (o : ElfOracle) (records : List PerfRecord)
    (pidFilter : PidFilter) : MemmapRecordsOutput :=
  let res := parseRun o records pidFilter
  let tracked :=
    match res.2 with
    | .all => indexPids res.1.index
    | .trackedPids s => s
  ⟨res.1.index, tracked⟩

section AssocLemmas

variable {α β : Type} [DecidableEq α]

theorem mem_aupsert {m : List (α × β)} {k : α} {v : β} {e : α × β}
    (h : e ∈ aupsert m k v) : e ∈ m ∨ e = (k, v) := by
  induction m with
  | nil => simpa [aupsert] using h
  | cons a rest ih =>
    by_cases ha : a.1 = k
    · simp only [aupsert, if_pos ha, List.mem_cons] at h
      rcases h with h | h
      · right; exact h
      · left; simp [h]
    · simp only [aupsert, if_neg ha, List.mem_cons] at h
      rcases h with h | h
      · left; simp [h]
      · rcases ih h with h2 | h2
        · left; simp [h2]
        · right; exact h2

theorem alookup_aupsert_self (m : List (α × β)) (k : α) (v : β) :
    alookup (aupsert m k v) k = some v := by
  induction m with
  | nil => simp [aupsert, alookup]
  | cons a rest ih =>
    by_cases ha : a.1 = k
    · simp [aupsert, if_pos ha, alookup, List.find?]
    · simp only [aupsert, if_neg ha]
      unfold alookup
      rw [List.find?_cons_of_neg _ (by simpa using ha)]
      exact ih

theorem alookup_aupsert_ne (m : List (α × β)) (k k2 : α) (v : β)
    (h : k2 ≠ k) : alookup (aupsert m k v) k2 = alookup m k2 := by
  induction m with
  | nil => simp [aupsert, alookup, List.find?, Ne.symm h]
  | cons a rest ih =>
    by_cases ha : a.1 = k
    · unfold alookup
      rw [aupsert, if_pos ha]
      rw [List.find?_cons_of_neg _ (by simpa using Ne.symm h)]
      rw [List.find?_cons_of_neg _ (by simp [ha, Ne.symm h])]
    · rw [aupsert, if_neg ha]
      unfold alookup at ih ⊢
      by_cases hak : a.1 = k2
      · rw [List.find?_cons_of_pos _ (by simpa using hak),
          List.find?_cons_of_pos _ (by simpa using hak)]
      · rw [List.find?_cons_of_neg _ (by simpa using hak),
          List.find?_cons_of_neg _ (by simpa using hak)]
        exact ih

theorem aupsert_lookup_eq {m : List (α × β)} {k : α} {v : β}
    (h : alookup m k = some v) : aupsert m k v = m := by
  induction m with
  | nil => simp [alookup] at h
  | cons a rest ih =>
    by_cases ha : a.1 = k
    · unfold alookup at h
      rw [List.find?_cons_of_pos _ (by simpa using ha)] at h
      simp at h
      rw [aupsert, if_pos ha]
      obtain ⟨a1, a2⟩ := a
      simp only at ha h
      subst ha; subst h
      rfl
    · unfold alookup at h
      rw [List.find?_cons_of_neg _ (by simpa using ha)] at h
      rw [aupsert, if_neg ha, ih h]

theorem mem_of_alookup {m : List (α × β)} {k : α} {v : β}
    (h : alookup m k = some v) : (k, v) ∈ m := by
  unfold alookup at h
  cases hf : m.find? (fun e => e.1 = k) with
  | none => simp [hf] at h
  | some e =>
    rw [hf] at h
    simp at h
    have hmem := List.mem_of_find?_eq_some hf
    have hkey : e.1 = k := by simpa using List.find?_some hf
    obtain ⟨e1, e2⟩ := e
    simp only at hkey h
    subst hkey; subst h
    exact hmem

theorem fst_mem_aupsert {m : List (α × β)} {k k2 : α} {v : β}
    (h : k2 ∈ (aupsert m k v).map (·.1)) :
    k2 ∈ m.map (·.1) ∨ k2 = k := by
  obtain ⟨e, he, rfl⟩ := List.mem_map.mp h
  rcases mem_aupsert he with h2 | h2
  · left; exact List.mem_map.mpr ⟨e, h2, rfl⟩
  · right; rw [h2]

theorem fst_mem_aupsert_of_mem {m : List (α × β)} {k2 : α} (k : α) (v : β)
    (h : k2 ∈ m.map (·.1)) : k2 ∈ (aupsert m k v).map (·.1) := by
  induction m with
  | nil => simp at h
  | cons a rest ih =>
    by_cases ha : a.1 = k
    · rw [aupsert, if_pos ha]
      rcases List.mem_map.mp h with ⟨e, he, rfl⟩
      rcases List.mem_cons.mp he with h2 | h2
      · subst h2; simp [ha]
      · simp only [List.map_cons, List.mem_cons]
        right
        exact List.mem_map.mpr ⟨e, h2, rfl⟩
    · rw [aupsert, if_neg ha]
      rcases List.mem_map.mp h with ⟨e, he, rfl⟩
      rcases List.mem_cons.mp he with h2 | h2
      · subst h2; simp
      · simp only [List.map_cons, List.mem_cons]
        right
        exact ih (List.mem_map.mpr ⟨e, h2, rfl⟩)

theorem key_mem_aupsert_self (m : List (α × β)) (k : α) (v : β) :
    k ∈ (aupsert m k v).map (·.1) :=
  List.mem_map.mpr ⟨(k, v), by
    induction m with
    | nil => simp [aupsert]
    | cons a rest ih =>
      by_cases ha : a.1 = k
      · simp [aupsert, ha]
      · simp only [aupsert, if_neg ha, List.mem_cons]
        right; exact ih, rfl⟩

theorem aupsert_keys_nodup {m : List (α × β)} {k : α} {v : β}
    (h : (m.map (·.1)).Nodup) : ((aupsert m k v).map (·.1)).Nodup := by
  induction m with
  | nil => simp [aupsert]
  | cons a rest ih =>
    rw [List.map_cons, List.nodup_cons] at h
    by_cases ha : a.1 = k
    · rw [aupsert, if_pos ha]
      simp only [List.map_cons, List.nodup_cons]
      exact ⟨by rw [← ha]; exact h.1, h.2⟩
    · rw [aupsert, if_neg ha]
      simp only [List.map_cons, List.nodup_cons]
      refine ⟨?_, ih h.2⟩
      intro hcontra
      rcases fst_mem_aupsert hcontra with h2 | h2
      · exact h.1 h2
      · exact ha h2

theorem alookup_of_mem_nodup {m : List (α × β)} {k : α} {v : β}
    (hnd : (m.map (·.1)).Nodup) (h : (k, v) ∈ m) : alookup m k = some v := by
  induction m with
  | nil => simp at h
  | cons a rest ih =>
    rw [List.map_cons, List.nodup_cons] at hnd
    rcases List.mem_cons.mp h with h2 | h2
    · subst h2
      unfold alookup
      rw [List.find?_cons_of_pos _ (by simp)]
      rfl
    · have hka : a.1 ≠ k := by
        intro hcontra
        exact hnd.1 (by
          rw [hcontra]
          exact List.mem_map.mpr ⟨(k, v), h2, rfl⟩)
      unfold alookup
      rw [List.find?_cons_of_neg _ (by simpa using hka)]
      exact ih hnd.2 h2

end AssocLemmas

theorem mem_foldl_union {α : Type} [DecidableEq β] {f : α → Finset β}
    (l : List α) (init : Finset β) (p : β) :
    p ∈ l.foldl (fun acc e => acc ∪ f e) init ↔
      p ∈ init ∨ ∃ e ∈ l, p ∈ f e := by
  induction l generalizing init with
  | nil => simp
  | cons a rest ih =>
    rw [List.foldl_cons, ih]
    simp only [Finset.mem_union, List.mem_cons]
    constructor
    · rintro (⟨h | h⟩ | ⟨e, he, hp⟩)
      · exact Or.inl h
      · exact Or.inr ⟨a, Or.inl rfl, h⟩
      · exact Or.inr ⟨e, Or.inr he, hp⟩
    · rintro (h | ⟨e, he | he, hp⟩)
      · exact Or.inl (Or.inl h)
      · exact Or.inl (Or.inr (he ▸ hp))
      · exact Or.inr ⟨e, he, hp⟩

theorem mem_indexPids {index : List (String × LoadedModule)} {q : Int} :
    q ∈ indexPids index ↔ ∃ e ∈ index, q ∈ modulePids e.2 := by
  unfold indexPids
  rw [mem_foldl_union]
  simp

theorem mem_aupsert_of_ne {α β : Type} [DecidableEq α] {m : List (α × β)}
    {k : α} {v : β} {e : α × β} (he : e ∈ m) (hne : e.1 ≠ k) :
    e ∈ aupsert m k v := by
  induction m with
  | nil => simp at he
  | cons a rest ih =>
    by_cases ha : a.1 = k
    · rw [aupsert, if_pos ha]
      rcases List.mem_cons.mp he with h2 | h2
      · exact absurd (h2 ▸ ha) hne
      · exact List.mem_cons.mpr (Or.inr h2)
    · rw [aupsert, if_neg ha]
      rcases List.mem_cons.mp he with h2 | h2
      · exact List.mem_cons.mpr (Or.inl h2)
      · exact List.mem_cons.mpr (Or.inr (ih h2))

theorem aupsert_aupsert_same {α β : Type} [DecidableEq α]
    (m : List (α × β)) (k : α) (v : β) :
    aupsert (aupsert m k v) k v = aupsert m k v :=
  aupsert_lookup_eq (alookup_aupsert_self m k v)

/-- The accepted-path branch of `process_mmap2_record`, with the computed
load bias made explicit (see `processMmap2_eq_main`). -/
def mmap2Main (o : ElfOracle) (pid : Int)
    (address length _pageOffset : Nat) (path : String) (loadBias : Nat)
    (st : ParseState) : ParseState :=
  let endAddr := address + length
  let lm := (alookup st.index path).getD {}
  let plm := (alookup lm.processLoadedModules pid).getD {}
  let symRes : Option ModuleSymbols × List String :=
    if lm.moduleSymbols.isNone then
      ((match fromElf o path with
        | some s => some s
        | none => lm.moduleSymbols), [path])
    else (lm.moduleSymbols, [])
  let lm' := { lm with moduleSymbols := symRes.1 }
  let plm' := { plm with symbolsLoadBias := some loadBias }
  let res :=
    match o.unwindFromElf path address endAddr none loadBias with
    | some (ud, pud) =>
      ({ lm' with unwindData := some ud },
       { plm' with processUnwindData := some pud })
    | none => (lm', plm')
  let newPlms := aupsert lm.processLoadedModules pid res.2
  { index := aupsert st.index path
      { res.1 with processLoadedModules := newPlms },
    symbolsCalls := st.symbolsCalls ++ symRes.2,
    unwindCalls := st.unwindCalls ++ [path] }

theorem processMmap2_eq_main (o : ElfOracle) (pid : Int)
    (address length pageOffset protection : Nat) (path : String)
    (loadBias : Nat) (st : ParseState)
    (h1 : protection.land PROT_EXEC ≠ 0) (h2 : path ≠ "//anon")
    (h3 : isSpecialMapping path = false)
    (h4 : o.computeLoadBias path address (address + length) pageOffset =
      some loadBias) :
    processMmap2Record o pid address length pageOffset protection path st =
      mmap2Main o pid address length pageOffset path loadBias st := by
  unfold processMmap2Record mmap2Main
  rw [if_neg h1, if_neg h2, if_neg (by simp [h3])]
  simp only [h4]

theorem processMmap2_reject (o : ElfOracle) (pid : Int)
    (address length pageOffset protection : Nat) (path : String)
    (st : ParseState)
    (h : protection.land PROT_EXEC = 0 ∨ path = "//anon" ∨
      isSpecialMapping path = true ∨
      o.computeLoadBias path address (address + length) pageOffset = none) :
    processMmap2Record o pid address length pageOffset protection path st =
      st := by
  unfold processMmap2Record
  by_cases h1 : protection.land PROT_EXEC = 0
  · rw [if_pos h1]
  rw [if_neg h1]
  by_cases h2 : path = "//anon"
  · rw [if_pos h2]
  rw [if_neg h2]
  by_cases h3 : isSpecialMapping path = true
  · rw [if_pos h3]
  rw [if_neg h3]
  have h4 : o.computeLoadBias path address (address + length) pageOffset =
      none := by
    rcases h with h | h | h | h
    · exact absurd h h1
    · exact absurd h h2
    · exact absurd h h3
    · exact h
  simp only [h4]

/-- Invariant: every per-PID entry in the module index carries a load bias. -/
def biasInv (index : List (String × LoadedModule)) : Prop :=
  ∀ e ∈ index, ∀ pe ∈ e.2.processLoadedModules,
    pe.2.symbolsLoadBias.isSome = true

/-- Invariant: every module in the index has extracted symbols. -/
def symsomeInv (index : List (String × LoadedModule)) : Prop :=
  ∀ e ∈ index, e.2.moduleSymbols.isSome = true

def keysNodup (index : List (String × LoadedModule)) : Prop :=
  (index.map (·.1)).Nodup

theorem biasInv_mmap2Main (o : ElfOracle) (pid : Int)
    (address length pageOffset : Nat) (path : String) (loadBias : Nat)
    (st : ParseState) (h : biasInv st.index) :
    biasInv (mmap2Main o pid address length pageOffset path loadBias st).index := by
  intro e he pe hpe
  simp only [mmap2Main] at he
  rcases mem_aupsert he with hmem | rfl
  · exact h e hmem pe hpe
  · simp only at hpe
    rcases mem_aupsert hpe with hpe2 | rfl
    · cases halook : alookup st.index path with
      | none => rw [halook] at hpe2; simp at hpe2
      | some lm0 =>
        rw [halook] at hpe2
        simp only [Option.getD_some] at hpe2
        exact h (path, lm0) (mem_of_alookup halook) pe hpe2
    · cases hunw : o.unwindFromElf path address (address + length) none loadBias with
      | none => simp [hunw]
      | some udpud => obtain ⟨ud, pud⟩ := udpud; simp [hunw]

theorem symsomeInv_mmap2Main (o : ElfOracle) (pid : Int)
    (address length pageOffset : Nat) (path : String) (loadBias : Nat)
    (st : ParseState) (hfe : (fromElf o path).isSome = true)
    (h : symsomeInv st.index) :
    symsomeInv (mmap2Main o pid address length pageOffset path loadBias st).index := by
  intro e he
  simp only [mmap2Main] at he
  rcases mem_aupsert he with hmem | rfl
  · exact h e hmem
  · obtain ⟨s, hs⟩ := Option.isSome_iff_exists.mp hfe
    cases hunw : o.unwindFromElf path address (address + length) none loadBias with
    | none =>
      simp only [hunw]
      cases hms : ((alookup st.index path).getD {}).moduleSymbols with
      | none => simp [hms, hs]
      | some s0 => simp [hms]
    | some udpud =>
      obtain ⟨ud, pud⟩ := udpud
      simp only [hunw]
      cases hms : ((alookup st.index path).getD {}).moduleSymbols with
      | none => simp [hms, hs]
      | some s0 => simp [hms]

theorem keys_mmap2Main (o : ElfOracle) (pid : Int)
    (address length pageOffset : Nat) (path : String) (loadBias : Nat)
    (st : ParseState) (p : String)
    (hp : p ∈ ((mmap2Main o pid address length pageOffset path loadBias st).index).map (·.1)) :
    p ∈ st.index.map (·.1) ∨ p = path := by
  simp only [mmap2Main] at hp
  exact fst_mem_aupsert hp

theorem keysNodup_mmap2Main (o : ElfOracle) (pid : Int)
    (address length pageOffset : Nat) (path : String) (loadBias : Nat)
    (st : ParseState) (h : keysNodup st.index) :
    keysNodup (mmap2Main o pid address length pageOffset path loadBias st).index := by
  simp only [mmap2Main, keysNodup]
  exact aupsert_keys_nodup h

theorem pids_mmap2Main_iff (o : ElfOracle) (pid : Int)
    (address length pageOffset : Nat) (path : String) (loadBias : Nat)
    (st : ParseState) (hnd : keysNodup st.index) (q : Int) :
    (∃ e ∈ (mmap2Main o pid address length pageOffset path loadBias st).index,
       q ∈ modulePids e.2) ↔
      (∃ e ∈ st.index, q ∈ modulePids e.2) ∨ q = pid := by
  simp only [mmap2Main]
  constructor
  · rintro ⟨e, he, hq⟩
    rcases mem_aupsert he with hmem | rfl
    · exact Or.inl ⟨e, hmem, hq⟩
    · simp only [modulePids] at hq
      rcases fst_mem_aupsert hq with h2 | h2
      · cases halook : alookup st.index path with
        | none => rw [halook] at h2; simp at h2
        | some lm0 =>
          rw [halook] at h2
          simp only [Option.getD_some] at h2
          exact Or.inl ⟨(path, lm0), mem_of_alookup halook, h2⟩
      · exact Or.inr h2
  · rintro (⟨e, he, hq⟩ | rfl)
    · by_cases hkey : e.1 = path
      · have halook : alookup st.index path = some e.2 := by
          rw [← hkey]
          exact alookup_of_mem_nodup hnd (by
            obtain ⟨e1, e2⟩ := e; exact he)
        refine ⟨_, mem_of_alookup (alookup_aupsert_self st.index path _), ?_⟩
        simp only [modulePids, halook, Option.getD_some]
        exact fst_mem_aupsert_of_mem _ _ hq
      · exact ⟨e, mem_aupsert_of_ne he hkey, hq⟩
    · refine ⟨_, mem_of_alookup (alookup_aupsert_self st.index path _), ?_⟩
      simp only [modulePids]
      exact key_mem_aupsert_self _ _ _

/-- A record is an MMAP2 for `path` that passes the PROT_EXEC / `//anon` /
`[...]` filters and whose load-bias computation succeeds. -/
def isAcceptedMmap2For (o : ElfOracle) (path : String) : PerfRecord → Bool
  | .mmap2 _ address length pageOffset protection p =>
    p == path && !(protection.land PROT_EXEC == 0) && !(p == "//anon") &&
      !isSpecialMapping p &&
      (o.computeLoadBias p address (address + length) pageOffset).isSome
  | _ => false

/-- Same acceptance test, keyed by the record's PID. -/
def isAcceptedMmap2Pid (o : ElfOracle) (q : Int) : PerfRecord → Bool
  | .mmap2 pid address length pageOffset protection p =>
    pid == q && !(protection.land PROT_EXEC == 0) && !(p == "//anon") &&
      !isSpecialMapping p &&
      (o.computeLoadBias p address (address + length) pageOffset).isSome
  | _ => false

/-- Rust `process_mmap2_record` either rejects the record (state unchanged) or
takes the accepted-path branch `mmap2Main` with the computed load bias. -/
theorem processMmap2_dichotomy (o : ElfOracle) (pid : Int)
    (address length pageOffset protection : Nat) (path : String)
    (st : ParseState) :
    (processMmap2Record o pid address length pageOffset protection path st = st ∧
      isAcceptedMmap2For o path (.mmap2 pid address length pageOffset protection path) = false ∧
      (∀ q : Int, isAcceptedMmap2Pid o q (.mmap2 pid address length pageOffset protection path) = false)) ∨
    (∃ loadBias,
      o.computeLoadBias path address (address + length) pageOffset = some loadBias ∧
      isAcceptedMmap2For o path (.mmap2 pid address length pageOffset protection path) = true ∧
      (∀ q : Int, isAcceptedMmap2Pid o q (.mmap2 pid address length pageOffset protection path) = (pid == q)) ∧
      processMmap2Record o pid address length pageOffset protection path st =
        mmap2Main o pid address length pageOffset path loadBias st) := by
  by_cases h1 : protection.land PROT_EXEC = 0
  · exact Or.inl ⟨processMmap2_reject _ _ _ _ _ _ _ _ (Or.inl h1),
      by simp [isAcceptedMmap2For, h1],
      by intro q; simp [isAcceptedMmap2Pid, h1]⟩
  by_cases h2 : path = "//anon"
  · exact Or.inl ⟨processMmap2_reject _ _ _ _ _ _ _ _ (Or.inr (Or.inl h2)),
      by simp [isAcceptedMmap2For, h2],
      by intro q; simp [isAcceptedMmap2Pid, h2]⟩
  by_cases h3 : isSpecialMapping path = true
  · exact Or.inl ⟨processMmap2_reject _ _ _ _ _ _ _ _ (Or.inr (Or.inr (Or.inl h3))),
      by simp [isAcceptedMmap2For, h3],
      by intro q; simp [isAcceptedMmap2Pid, h3]⟩
  have h3' : isSpecialMapping path = false := by simpa using h3
  cases h4 : o.computeLoadBias path address (address + length) pageOffset with
  | none =>
    exact Or.inl ⟨processMmap2_reject _ _ _ _ _ _ _ _ (Or.inr (Or.inr (Or.inr h4))),
      by simp [isAcceptedMmap2For, h4, h1, h2, h3'],
      by intro q; simp [isAcceptedMmap2Pid, h4, h1, h2, h3']⟩
  | some loadBias =>
    have hb1 : (protection.land PROT_EXEC == 0) = false := by simpa using h1
    have hb2 : (path == "//anon") = false := by simpa using h2
    exact Or.inr ⟨loadBias, rfl,
      by simp [isAcceptedMmap2For, h4, h1, h2, h3'],
      by intro q; simp [isAcceptedMmap2Pid, h4, hb1, hb2, h3'],
      processMmap2_eq_main o pid address length pageOffset protection path
        loadBias st h1 h2 h3' h4⟩

theorem biasInv_parseStep (o : ElfOracle) (acc : ParseState × PidFilter)
    (r : PerfRecord) (h : biasInv acc.1.index) :
    biasInv (parseStep o acc r).1.index := by
  cases r with
  | fork ppid pid => exact h
  | other => exact h
  | mmap2 pid address length pageOffset protection path =>
    simp only [parseStep]
    by_cases hinc : acc.2.shouldInclude pid
    · rw [if_pos hinc]
      rcases processMmap2_dichotomy o pid address length pageOffset protection
          path acc.1 with ⟨heq, _, _⟩ | ⟨loadBias, _, _, _, heq⟩
      · rw [heq]; exact h
      · rw [heq]
        exact biasInv_mmap2Main o pid address length pageOffset path loadBias
          acc.1 h
    · rw [if_neg hinc]; exact h

theorem biasInv_foldl (o : ElfOracle) (records : List PerfRecord) :
    ∀ (acc : ParseState × PidFilter), biasInv acc.1.index →
      biasInv ((records.foldl (parseStep o) acc).1.index) := by
  induction records with
  | nil => intro acc h; exact h
  | cons r rest ih =>
    intro acc h
    exact ih (parseStep o acc r) (biasInv_parseStep o acc r h)

theorem keys_parseStep (o : ElfOracle) (acc : ParseState × PidFilter)
    (r : PerfRecord) (p : String)
    (hp : p ∈ ((parseStep o acc r).1.index).map (·.1)) :
    p ∈ acc.1.index.map (·.1) ∨ isAcceptedMmap2For o p r = true := by
  cases r with
  | fork ppid pid => exact Or.inl hp
  | other => exact Or.inl hp
  | mmap2 pid address length pageOffset protection path =>
    simp only [parseStep] at hp
    by_cases hinc : acc.2.shouldInclude pid
    · rw [if_pos hinc] at hp
      rcases processMmap2_dichotomy o pid address length pageOffset protection
          path acc.1 with ⟨heq, _, _⟩ | ⟨loadBias, _, hacc, _, heq⟩
      · rw [heq] at hp; exact Or.inl hp
      · rw [heq] at hp
        rcases keys_mmap2Main o pid address length pageOffset path loadBias
            acc.1 p hp with h2 | rfl
        · exact Or.inl h2
        · exact Or.inr hacc
    · rw [if_neg hinc] at hp; exact Or.inl hp

theorem keys_foldl (o : ElfOracle) (records : List PerfRecord) :
    ∀ (acc : ParseState × PidFilter) (p : String),
      p ∈ ((records.foldl (parseStep o) acc).1.index).map (·.1) →
      p ∈ acc.1.index.map (·.1) ∨ ∃ r ∈ records, isAcceptedMmap2For o p r = true := by
  induction records with
  | nil => intro acc p hp; exact Or.inl hp
  | cons r rest ih =>
    intro acc p hp
    rcases ih (parseStep o acc r) p hp with h2 | ⟨r2, hr2, hacc⟩
    · rcases keys_parseStep o acc r p h2 with h3 | h3
      · exact Or.inl h3
      · exact Or.inr ⟨r, by simp, h3⟩
    · exact Or.inr ⟨r2, by simp [hr2], hacc⟩

/-- C10: in every `MemmapRecordsOutput`, every per-PID entry has
`symbols_load_bias = Some`, and a path appears in the module index only if
some MMAP2 record for it passed all filters and had a successful load-bias
computation. -/
theorem parse_bias_and_origin (o : ElfOracle) (records : List PerfRecord)
    (f : PidFilter) :
    (∀ e ∈ (parseForMemmap2 o records f).loadedModulesByPath,
       ∀ pe ∈ e.2.processLoadedModules, pe.2.symbolsLoadBias.isSome = true) ∧
    (∀ e ∈ (parseForMemmap2 o records f).loadedModulesByPath,
       ∃ r ∈ records, isAcceptedMmap2For o e.1 r = true) := by
  constructor
  · intro e he
    have : biasInv ((records.foldl (parseStep o) (initialParseState, f)).1.index) :=
      biasInv_foldl o records (initialParseState, f) (by intro e2 he2; simp [initialParseState] at he2)
    exact this e (by simpa [parseForMemmap2, parseRun] using he)
  · intro e he
    have hkey : e.1 ∈ ((records.foldl (parseStep o) (initialParseState, f)).1.index).map (·.1) :=
      List.mem_map.mpr ⟨e, by simpa [parseForMemmap2, parseRun] using he, rfl⟩
    rcases keys_foldl o records (initialParseState, f) e.1 hkey with h2 | h2
    · simp [initialParseState] at h2
    · exact h2

/-- An oracle whose load-bias computation succeeds on every path while
symbol extraction fails on every path (e.g. an ELF with program headers but
no symbols). -/
def biasOnlyOracle : ElfOracle :=
  ⟨fun _ _ _ _ => some 0, fun _ => none, fun _ _ _ _ _ => none⟩

/-- Witness for `parse_bias_and_origin`: the concrete per-PID entry produced
by one accepted MMAP2 carries `symbols_load_bias = Some 0`, and its path has
an accepted record. -/
theorem parse_bias_and_origin_witness :
    ((1 : Int), (⟨some 0, none⟩ :
        ProcessLoadedModule)).2.symbolsLoadBias.isSome = true ∧
    ∃ r ∈ [PerfRecord.mmap2 1 0 4096 0 4 "/x"],
      isAcceptedMmap2For biasOnlyOracle
        (("/x", (⟨none, none, [(1, ⟨some 0, none⟩)]⟩ : LoadedModule)) :
            String × LoadedModule).1 r = true := by
  have h := parse_bias_and_origin biasOnlyOracle
    [.mmap2 1 0 4096 0 4 "/x"] .all
  exact ⟨h.1 ("/x", ⟨none, none, [(1, ⟨some 0, none⟩)]⟩) (by decide)
      (1, ⟨some 0, none⟩) (by decide),
    h.2 ("/x", ⟨none, none, [(1, ⟨some 0, none⟩)]⟩) (by decide)⟩

/-- C2 counterexample: after one accepted MMAP2 whose symbol extraction
fails, the index holds a per-PID entry with `symbols_load_bias = Some`
inside a `LoadedModule` whose `ModuleSymbols` is `None` — the load bias is
stored unconditionally, after the (failed) extraction attempt. -/
theorem bias_without_symbols_counterexample :
    ∃ e ∈ (parseForMemmap2 biasOnlyOracle [.mmap2 1 0 4096 0 4 "/x"]
        .all).loadedModulesByPath,
      ∃ pe ∈ e.2.processLoadedModules,
        pe.2.symbolsLoadBias.isSome = true ∧ e.2.moduleSymbols = none := by
  decide

theorem symsomeInv_parseStep (o : ElfOracle)
    (hOracle : ∀ path a b c, (o.computeLoadBias path a b c).isSome = true →
      (fromElf o path).isSome = true)
    (acc : ParseState × PidFilter) (r : PerfRecord)
    (h : symsomeInv acc.1.index) : symsomeInv (parseStep o acc r).1.index := by
  cases r with
  | fork ppid pid => exact h
  | other => exact h
  | mmap2 pid address length pageOffset protection path =>
    simp only [parseStep]
    by_cases hinc : acc.2.shouldInclude pid
    · rw [if_pos hinc]
      rcases processMmap2_dichotomy o pid address length pageOffset protection
          path acc.1 with ⟨heq, _, _⟩ | ⟨loadBias, hbias, _, _, heq⟩
      · rw [heq]; exact h
      · rw [heq]
        exact symsomeInv_mmap2Main o pid address length pageOffset path
          loadBias acc.1 (hOracle path address (address + length) pageOffset
            (by simp [hbias])) h
    · rw [if_neg hinc]; exact h

theorem symsomeInv_foldl (o : ElfOracle)
    (hOracle : ∀ path a b c, (o.computeLoadBias path a b c).isSome = true →
      (fromElf o path).isSome = true) (records : List PerfRecord) :
    ∀ (acc : ParseState × PidFilter), symsomeInv acc.1.index →
      symsomeInv ((records.foldl (parseStep o) acc).1.index) := by
  induction records with
  | nil => intro acc h; exact h
  | cons r rest ih =>
    intro acc h
    exact ih (parseStep o acc r) (symsomeInv_parseStep o hOracle acc r h)

/-- C2 (amended): *provided* symbol extraction succeeds on every path whose
load-bias computation succeeds, every per-PID entry whose
`symbols_load_bias` is `Some` lies in a `LoadedModule` whose
`ModuleSymbols` is `Some`.  (Without that proviso the invariant fails: the
bias is stored unconditionally, see the counterexample.) -/
theorem bias_implies_symbols_under_extraction_success (o : ElfOracle)
    (records : List PerfRecord) (f : PidFilter)
    (hOracle : ∀ path a b c, (o.computeLoadBias path a b c).isSome = true →
      (fromElf o path).isSome = true) :
    ∀ e ∈ (parseForMemmap2 o records f).loadedModulesByPath,
      ∀ pe ∈ e.2.processLoadedModules,
        pe.2.symbolsLoadBias.isSome = true →
        e.2.moduleSymbols.isSome = true := by
  intro e he _ _ _
  have : symsomeInv ((records.foldl (parseStep o) (initialParseState, f)).1.index) :=
    symsomeInv_foldl o hOracle records (initialParseState, f)
      (by intro e2 he2; simp [initialParseState] at he2)
  exact this e (by simpa [parseForMemmap2, parseRun] using he)

/-- The oracle for the `bias_implies_symbols_under_extraction_success`
witness: symbol extraction succeeds everywhere. -/
def goodSymbolsOracle : ElfOracle :=
  ⟨fun _ _ _ _ => some 0, fun _ => some [⟨0, 16, "main"⟩],
    fun _ _ _ _ _ => none⟩

/-- Witness for `bias_implies_symbols_under_extraction_success` at a
concrete input: the single module of a one-record run has its symbols. -/
theorem bias_implies_symbols_witness :
    (("/x", (⟨some ⟨[⟨0, 16, "main"⟩]⟩, none, [(1, ⟨some 0, none⟩)]⟩ :
        LoadedModule)) :
          String × LoadedModule).2.moduleSymbols.isSome = true :=
  bias_implies_symbols_under_extraction_success goodSymbolsOracle
    [.mmap2 1 0 4096 0 4 "/x"] .all
    (by
      intro path a b c _
      show (fromElf goodSymbolsOracle path).isSome = true
      rfl)
    ("/x", ⟨some ⟨[⟨0, 16, "main"⟩]⟩, none, [(1, ⟨some 0, none⟩)]⟩)
    (by decide) (1, ⟨some 0, none⟩) (by decide) (by decide)

theorem keysNodup_parseStep (o : ElfOracle) (acc : ParseState × PidFilter)
    (r : PerfRecord) (h : keysNodup acc.1.index) :
    keysNodup (parseStep o acc r).1.index := by
  cases r with
  | fork ppid pid => exact h
  | other => exact h
  | mmap2 pid address length pageOffset protection path =>
    simp only [parseStep]
    by_cases hinc : acc.2.shouldInclude pid
    · rw [if_pos hinc]
      rcases processMmap2_dichotomy o pid address length pageOffset protection
          path acc.1 with ⟨heq, _, _⟩ | ⟨loadBias, _, _, _, heq⟩
      · rw [heq]; exact h
      · rw [heq]
        exact keysNodup_mmap2Main o pid address length pageOffset path
          loadBias acc.1 h
    · rw [if_neg hinc]; exact h

theorem parseStep_all_snd (o : ElfOracle) (st : ParseState) (r : PerfRecord) :
    (parseStep o (st, PidFilter.all) r).2 = PidFilter.all := by
  cases r with
  | fork ppid pid => rfl
  | other => rfl
  | mmap2 pid address length pageOffset protection path =>
    simp [parseStep, PidFilter.shouldInclude]

/-- The filter-growth effect of one record on a `TrackedPids` set: only FORK
records with a tracked parent change it. -/
def forkGrow (s : Finset Int) : PerfRecord → Finset Int
  | .fork ppid pid => if ppid ∈ s then insert pid s else s
  | _ => s

theorem parseStep_tracked_snd (o : ElfOracle) (st : ParseState)
    (s0 : Finset Int) (r : PerfRecord) :
    (parseStep o (st, PidFilter.trackedPids s0) r).2 =
      PidFilter.trackedPids (forkGrow s0 r) := by
  cases r with
  | fork ppid pid =>
    simp only [parseStep, PidFilter.addChildIfParentTracked, forkGrow]
    by_cases hp : ppid ∈ s0 <;> simp [hp]
  | other => rfl
  | mmap2 pid address length pageOffset protection path =>
    simp only [parseStep, forkGrow]
    by_cases hinc : (PidFilter.trackedPids s0).shouldInclude pid <;>
      simp [hinc]

theorem tracked_filter_foldl (o : ElfOracle) (records : List PerfRecord) :
    ∀ (st : ParseState) (s0 : Finset Int),
      (records.foldl (parseStep o) (st, PidFilter.trackedPids s0)).2 =
        PidFilter.trackedPids (records.foldl forkGrow s0) := by
  induction records with
  | nil => intro st s0; rfl
  | cons r rest ih =>
    intro st s0
    rw [List.foldl_cons, List.foldl_cons]
    rcases hps : parseStep o (st, PidFilter.trackedPids s0) r with ⟨st1, f1⟩
    have hsnd := parseStep_tracked_snd o st s0 r
    rw [hps] at hsnd
    simp only at hsnd
    rw [hsnd]
    exact ih st1 (forkGrow s0 r)

theorem pidIn_parseStep_all_iff (o : ElfOracle) (st : ParseState)
    (r : PerfRecord) (q : Int) (hnd : keysNodup st.index) :
    (∃ e ∈ (parseStep o (st, PidFilter.all) r).1.index, q ∈ modulePids e.2) ↔
      (∃ e ∈ st.index, q ∈ modulePids e.2) ∨
        isAcceptedMmap2Pid o q r = true := by
  cases r with
  | fork ppid pid => simp [parseStep, isAcceptedMmap2Pid]
  | other => simp [parseStep, isAcceptedMmap2Pid]
  | mmap2 pid address length pageOffset protection path =>
    have hinc : (PidFilter.all).shouldInclude pid = true := rfl
    simp only [parseStep, hinc, if_true]
    rcases processMmap2_dichotomy o pid address length pageOffset protection
        path st with ⟨heq, _, hpids⟩ | ⟨loadBias, _, _, hpids, heq⟩
    · rw [heq, hpids q]
      simp
    · rw [heq, hpids q]
      rw [pids_mmap2Main_iff o pid address length pageOffset path loadBias st
        hnd q]
      constructor
      · rintro (h2 | rfl)
        · exact Or.inl h2
        · exact Or.inr (by simp)
      · rintro (h2 | h2)
        · exact Or.inl h2
        · exact Or.inr (beq_iff_eq.mp h2).symm

theorem pidIn_foldl_all_iff (o : ElfOracle) (records : List PerfRecord) :
    ∀ (st : ParseState), keysNodup st.index → ∀ q : Int,
      (∃ e ∈ ((records.foldl (parseStep o) (st, PidFilter.all)).1.index),
         q ∈ modulePids e.2) ↔
        (∃ e ∈ st.index, q ∈ modulePids e.2) ∨
          ∃ r ∈ records, isAcceptedMmap2Pid o q r = true := by
  induction records with
  | nil => intro st _ q; simp
  | cons r rest ih =>
    intro st hnd q
    rw [List.foldl_cons]
    rcases hps : parseStep o (st, PidFilter.all) r with ⟨st1, f1⟩
    have hsnd := parseStep_all_snd o st r
    rw [hps] at hsnd
    simp only at hsnd
    subst hsnd
    have hnd1 : keysNodup st1.index := by
      have := keysNodup_parseStep o (st, PidFilter.all) r hnd
      rwa [hps] at this
    rw [ih st1 hnd1 q]
    have hstep := pidIn_parseStep_all_iff o st r q hnd
    rw [hps] at hstep
    simp only at hstep
    rw [hstep]
    constructor
    · rintro ((h2 | h2) | ⟨r2, hr2, hacc⟩)
      · exact Or.inl h2
      · exact Or.inr ⟨r, by simp, h2⟩
      · exact Or.inr ⟨r2, by simp [hr2], hacc⟩
    · rintro (h2 | ⟨r2, hr2, hacc⟩)
      · exact Or.inl (Or.inl h2)
      · rcases List.mem_cons.mp hr2 with h3 | h3
        · exact Or.inl (Or.inr (h3 ▸ hacc))
        · exact Or.inr ⟨r2, h3, hacc⟩

/-- C5 (amended): `parse_for_memmap2` returns, as `tracked_pids`, the grown
`TrackedPids` set when the filter is `TrackedPids`, and — when the filter is
`All` — the set of PIDs that have an entry in the module index, i.e. the
PIDs of accepted MMAP2 records whose load-bias computation succeeded (not
the set of all PIDs observed in the stream). -/
theorem tracked_pids_final (o : ElfOracle) (records : List PerfRecord) :
    (∀ s0 : Finset Int,
       (parseForMemmap2 o records (PidFilter.trackedPids s0)).trackedPids =
         records.foldl forkGrow s0) ∧
    (∀ q : Int,
       q ∈ (parseForMemmap2 o records PidFilter.all).trackedPids ↔
         ∃ r ∈ records, isAcceptedMmap2Pid o q r = true) := by
  constructor
  · intro s0
    unfold parseForMemmap2 parseRun
    rcases hps : records.foldl (parseStep o)
        (initialParseState, PidFilter.trackedPids s0) with ⟨st1, f1⟩
    have hsnd := tracked_filter_foldl o records initialParseState s0
    rw [hps] at hsnd
    simp only at hsnd
    subst hsnd
    rfl
  · intro q
    unfold parseForMemmap2 parseRun
    rcases hps : records.foldl (parseStep o)
        (initialParseState, PidFilter.all) with ⟨st1, f1⟩
    have hsnd : f1 = PidFilter.all := by
      have : ∀ (rs : List PerfRecord) (st : ParseState),
          (rs.foldl (parseStep o) (st, PidFilter.all)).2 = PidFilter.all := by
        intro rs
        induction rs with
        | nil => intro st; rfl
        | cons r2 rest2 ih2 =>
          intro st
          rw [List.foldl_cons]
          rcases hps2 : parseStep o (st, PidFilter.all) r2 with ⟨st2, f2⟩
          have h2 := parseStep_all_snd o st r2
          rw [hps2] at h2
          simp only at h2
          subst h2
          exact ih2 st2
      have := this records initialParseState
      rw [hps] at this
      simpa using this
    subst hsnd
    simp only
    rw [mem_indexPids]
    have := pidIn_foldl_all_iff o records initialParseState
      (by simp [initialParseState, keysNodup]) q
    rw [hps] at this
    simp only at this
    rw [this]
    simp [initialParseState]

/-- Modelled from the spec: the comparison set of the claim's `All` case —
"the union of PIDs ever observed" in the stream, i.e. every PID appearing
in any FORK or MMAP2 record. -/
def specObservedPids (records : List PerfRecord) : Finset Int :=
  records.foldl (fun acc r =>
    match r with
    | .fork ppid pid => insert pid (insert ppid acc)
    | .mmap2 pid _ _ _ _ _ => insert pid acc
    | .other => acc) ∅

/-- C5 counterexample: a stream consisting of one FORK record observes PIDs
{1, 2}, yet with filter `All` the parser returns an empty `tracked_pids`
set (it collects only PIDs present in the module index). -/
theorem tracked_pids_all_counterexample :
    (parseForMemmap2 biasOnlyOracle [.fork 1 2]
        PidFilter.all).trackedPids ≠ specObservedPids [.fork 1 2] := by
  decide

/-- Witness for `tracked_pids_final`: a singleton tracked set grows by one
fork. -/
theorem tracked_pids_final_witness :
    (parseForMemmap2 biasOnlyOracle [.fork 5 6]
        (PidFilter.trackedPids {5})).trackedPids =
      [PerfRecord.fork 5 6].foldl forkGrow {5} :=
  (tracked_pids_final biasOnlyOracle [.fork 5 6]).1 {5}

/-- C3 (amended): symbol extraction is gated on the `module_symbols` field
still being `None` — once it is `Some`, later accepted MMAP2 records for the
path neither re-invoke the extractor nor change the field — and processing
the same accepted MMAP2 record twice leaves the module index unchanged
(field values are stable even though unwind extraction is re-run). -/
theorem symbols_gate_and_index_idempotent (o : ElfOracle) (pid : Int)
    (address length pageOffset protection : Nat) (path : String)
    (st : ParseState) :
    (∀ lm s, alookup st.index path = some lm → lm.moduleSymbols = some s →
       (∃ lm2,
          alookup (processMmap2Record o pid address length pageOffset
            protection path st).index path = some lm2 ∧
          lm2.moduleSymbols = some s) ∧
       (processMmap2Record o pid address length pageOffset protection path
         st).symbolsCalls = st.symbolsCalls) ∧
    (processMmap2Record o pid address length pageOffset protection path
        (processMmap2Record o pid address length pageOffset protection path
          st)).index =
      (processMmap2Record o pid address length pageOffset protection path
        st).index := by
  rcases processMmap2_dichotomy o pid address length pageOffset protection
      path st with ⟨heq, _, _⟩ | ⟨loadBias, hbias, haccFor, _, heq⟩
  · constructor
    · intro lm s halook hms
      rw [heq]
      exact ⟨⟨lm, halook, hms⟩, rfl⟩
    · rw [heq, heq]
  · constructor
    · intro lm s halook hms
      rw [heq]
      constructor
      · cases hunw : o.unwindFromElf path address (address + length) none
            loadBias with
        | none =>
          refine ⟨_, by
            simp only [mmap2Main, hunw]
            exact alookup_aupsert_self _ _ _, ?_⟩
          simp [halook, hms]
        | some udpud =>
          obtain ⟨ud, pud⟩ := udpud
          refine ⟨_, by
            simp only [mmap2Main, hunw]
            exact alookup_aupsert_self _ _ _, ?_⟩
          simp [halook, hms]
      · simp [mmap2Main, halook, hms]
    · have heq2 := heq
      rw [heq]
      rcases processMmap2_dichotomy o pid address length pageOffset protection
          path (mmap2Main o pid address length pageOffset path loadBias st)
        with ⟨heq3, hacc, _⟩ | ⟨loadBias2, hbias2, _, _, heq3⟩
      · rw [haccFor] at hacc
        exact absurd hacc (by simp)
      · have hlb : loadBias2 = loadBias := by
          rw [hbias] at hbias2
          exact (Option.some.injEq _ _ ▸ hbias2).symm
        rw [hlb] at heq3
        rw [heq3]
        cases hms0 : ((alookup st.index path).getD {} : LoadedModule).moduleSymbols with
        | some s =>
          cases hunw : o.unwindFromElf path address (address + length) none
              loadBias with
          | none =>
            simp [mmap2Main, hms0, hunw, alookup_aupsert_self,
              aupsert_aupsert_same]
          | some udpud =>
            obtain ⟨ud, pud⟩ := udpud
            simp [mmap2Main, hms0, hunw, alookup_aupsert_self,
              aupsert_aupsert_same]
        | none =>
          cases hfe : fromElf o path with
          | some s =>
            cases hunw : o.unwindFromElf path address (address + length) none
                loadBias with
            | none =>
              simp [mmap2Main, hms0, hfe, hunw, alookup_aupsert_self,
                aupsert_aupsert_same]
            | some udpud =>
              obtain ⟨ud, pud⟩ := udpud
              simp [mmap2Main, hms0, hfe, hunw, alookup_aupsert_self,
                aupsert_aupsert_same]
          | none =>
            cases hunw : o.unwindFromElf path address (address + length) none
                loadBias with
            | none =>
              simp [mmap2Main, hms0, hfe, hunw, alookup_aupsert_self,
                aupsert_aupsert_same]
            | some udpud =>
              obtain ⟨ud, pud⟩ := udpud
              simp [mmap2Main, hms0, hfe, hunw, alookup_aupsert_self,
                aupsert_aupsert_same]

/-- Witness for `symbols_gate_and_index_idempotent`: a module whose symbols
were already extracted keeps them across another accepted record. -/
theorem symbols_gate_witness :
    ∃ lm2,
      alookup (processMmap2Record goodSymbolsOracle 1 0 4096 0 4 "/x"
        ⟨[("/x", ⟨some ⟨[⟨0, 16, "main"⟩]⟩, none, [(1, ⟨some 0, none⟩)]⟩)],
          [], []⟩).index "/x" = some lm2 ∧
      lm2.moduleSymbols = some ⟨[⟨0, 16, "main"⟩]⟩ :=
  ((symbols_gate_and_index_idempotent goodSymbolsOracle 1 0 4096 0 4 "/x"
      ⟨[("/x", ⟨some ⟨[⟨0, 16, "main"⟩]⟩, none, [(1, ⟨some 0, none⟩)]⟩)],
        [], []⟩).1
    ⟨some ⟨[⟨0, 16, "main"⟩]⟩, none, [(1, ⟨some 0, none⟩)]⟩
    ⟨[⟨0, 16, "main"⟩]⟩ (by decide) rfl).1

/-- Oracle for the C3 counterexample: bias and unwind extraction succeed on
every record; symbol extraction fails. -/
def recomputeOracle : ElfOracle :=
  ⟨fun _ _ _ _ => some 0, fun _ => none,
    fun p _ _ _ _ => some (⟨p, 0, [], (0, 0), [], (0, 0)⟩, ⟨none, (0, 4096), 0⟩)⟩

/-- C3 counterexample: over two accepted MMAP2 records for the same path,
`unwind_data_from_elf` is invoked twice (it is not insertion-gated), and
`ModuleSymbols::from_elf` is also re-invoked after a failed first attempt —
so neither is "computed at most once per run". -/
theorem extraction_once_counterexample :
    ((parseRun recomputeOracle
        [.mmap2 1 0 4096 0 4 "/x", .mmap2 1 0 4096 0 4 "/x"]
        PidFilter.all).1.unwindCalls.count "/x" = 2) ∧
    ((parseRun recomputeOracle
        [.mmap2 1 0 4096 0 4 "/x", .mmap2 1 0 4096 0 4 "/x"]
        PidFilter.all).1.symbolsCalls.count "/x" = 2) := by
  decide

/-! ### JIT-dump reading (`jit_dump.rs`) -/

/-- A parsed JIT-dump record.  `codeSize` is `record.code_bytes.len()`;
every raw record carries a `timestamp`.  Unknown record kinds are
`other` (warned about and skipped by the source). -/
inductive JitDumpRecord
  | codeUnwindingInfo (ehFrame ehFrameHdr : List Nat) (timestamp : Nat)
  | codeLoad (functionName : String) (vma codeSize timestamp : Nat)
  | other (timestamp : Nat)
deriving DecidableEq, Repr

/-- One iteration of the `JitDump::into_unwind_data` loop over
`(current_unwind_info, harvested_unwind_data)`: a `CodeUnwindingInfo`
fills the single-slot buffer (storing `(eh_frame, eh_frame_hdr)`); a
`CodeLoad` `take()`s it — emitting one `(UnwindData, ProcessUnwindData)`
pair — or is skipped with a warning when the slot is empty. -/
def jitStep (acc : Option (List Nat × List Nat) ×
    List (UnwindData × ProcessUnwindData)) (r : JitDumpRecord) :
    Option (List Nat × List Nat) × List (UnwindData × ProcessUnwindData) :=
  match r with
  | .codeUnwindingInfo ehFrame ehFrameHdr _ =>
    (some (ehFrame, ehFrameHdr), acc.2)
  | .codeLoad name vma codeSize timestamp =>
    match acc.1 with
    | some (ehFrame, ehFrameHdr) =>
      (none, acc.2 ++
        [(⟨"jit_" ++ name, 0, ehFrameHdr, (0, 0), ehFrame, (0, 0)⟩,
          ⟨some timestamp, (vma, vma + codeSize), 0⟩)])
    | none => acc
  | .other _ => acc

/-- Rust `JitDump::into_unwind_data` over a decoded record stream. -/
def intoUnwindData (records : List JitDumpRecord) :
    List (UnwindData × ProcessUnwindData) :=
  (records.foldl jitStep (none, [])).2

theorem jit_emitted_shape_foldl (records : List JitDumpRecord) :
    ∀ (acc : Option (List Nat × List Nat) ×
        List (UnwindData × ProcessUnwindData)),
      (∀ p ∈ acc.2, ∃ name ts vma codeSize,
        p.1.path = "jit_" ++ name ∧ p.1.baseSvma = 0 ∧
        p.1.ehFrameHdrSvma = (0, 0) ∧ p.1.ehFrameSvma = (0, 0) ∧
        p.2.timestamp = some ts ∧ p.2.avmaRange = (vma, vma + codeSize) ∧
        p.2.baseAvma = 0) →
      ∀ p ∈ (records.foldl jitStep acc).2, ∃ name ts vma codeSize,
        p.1.path = "jit_" ++ name ∧ p.1.baseSvma = 0 ∧
        p.1.ehFrameHdrSvma = (0, 0) ∧ p.1.ehFrameSvma = (0, 0) ∧
        p.2.timestamp = some ts ∧ p.2.avmaRange = (vma, vma + codeSize) ∧
        p.2.baseAvma = 0 := by
  induction records with
  | nil => intro acc h; exact h
  | cons r rest ih =>
    intro acc h
    refine ih (jitStep acc r) ?_
    intro p hp
    cases r with
    | codeUnwindingInfo ehFrame ehFrameHdr ts => exact h p hp
    | other ts => exact h p hp
    | codeLoad name vma codeSize ts =>
      cases hslot : acc.1 with
      | none => rw [jitStep, hslot] at hp; exact h p hp
      | some efs =>
        obtain ⟨ehFrame, ehFrameHdr⟩ := efs
        rw [jitStep, hslot] at hp
        rcases List.mem_append.mp hp with h2 | h2
        · exact h p h2
        · simp only [List.mem_singleton] at h2
          subst h2
          exact ⟨name, ts, vma, codeSize, rfl, rfl, rfl, rfl, rfl, rfl, rfl⟩

/-- C9: the single-slot semantics of the JIT-dump reader: unwind-info
records fill the slot; a `CodeLoad` with a filled slot consumes it and
emits exactly one pair with path `jit_<name>`, `base_svma = 0`, svma ranges
`0..0`, `avma_range = vma..vma+code_size`, `base_avma = 0` and the record
timestamp; a `CodeLoad` with an empty slot emits nothing; and every pair
ever emitted by `into_unwind_data` has that shape. -/
theorem jit_single_slot (slot : Option (List Nat × List Nat))
    (out : List (UnwindData × ProcessUnwindData)) (ehFrame ehFrameHdr : List Nat)
    (name : String) (vma codeSize ts : Nat) :
    jitStep (slot, out) (.codeUnwindingInfo ehFrame ehFrameHdr ts) =
      (some (ehFrame, ehFrameHdr), out) ∧
    jitStep (some (ehFrame, ehFrameHdr), out) (.codeLoad name vma codeSize ts) =
      (none, out ++
        [(⟨"jit_" ++ name, 0, ehFrameHdr, (0, 0), ehFrame, (0, 0)⟩,
          ⟨some ts, (vma, vma + codeSize), 0⟩)]) ∧
    jitStep (none, out) (.codeLoad name vma codeSize ts) = (none, out) ∧
    (∀ records, ∀ p ∈ intoUnwindData records, ∃ nm t v cs,
      p.1.path = "jit_" ++ nm ∧ p.1.baseSvma = 0 ∧
      p.1.ehFrameHdrSvma = (0, 0) ∧ p.1.ehFrameSvma = (0, 0) ∧
      p.2.timestamp = some t ∧ p.2.avmaRange = (v, v + cs) ∧
      p.2.baseAvma = 0) := by
  refine ⟨rfl, rfl, rfl, ?_⟩
  intro records p hp
  exact jit_emitted_shape_foldl records (none, []) (by simp) p hp

/-- Witness for `jit_single_slot`: a two-record stream (one unwind-info,
one code-load) emits exactly the expected pair. -/
theorem jit_single_slot_witness :
    ∀ p ∈ intoUnwindData
      [.codeUnwindingInfo [1, 2] [3] 7,
       .codeLoad "py::eval" 1048576 64 9],
      ∃ nm t v cs,
        p.1.path = "jit_" ++ nm ∧ p.1.baseSvma = 0 ∧
        p.1.ehFrameHdrSvma = (0, 0) ∧ p.1.ehFrameSvma = (0, 0) ∧
        p.2.timestamp = some t ∧ p.2.avmaRange = (v, v + cs) ∧
        p.2.baseAvma = 0 :=
  (jit_single_slot none [] [] [] "" 0 0 0).2.2.2
    [.codeUnwindingInfo [1, 2] [3] 7, .codeLoad "py::eval" 1048576 64 9]

/-! ### Versioned unwind codec (`runner-shared/src/unwind_data.rs`)

The on-disk format is `bincode` 1.x with its default options: fixed-width
little-endian integers, `u64` collection lengths, a `u32` enum-variant tag,
and a one-byte `Option` tag.  Byte blobs and the UTF-8 bytes of the `path`
string are modelled as `List Nat`. -/

/-- The `k`-byte little-endian encoding of `n` (mod `256^k`). -/
def encLE : Nat → Nat → List Nat
  | 0, _ => []
  | k + 1, n => n % 256 :: encLE k (n / 256)

/-- Read `k` little-endian bytes. -/
def decLE : Nat → List Nat → Option (Nat × List Nat)
  | 0, bs => some (0, bs)
  | _ + 1, [] => none
  | k + 1, b :: bs => (decLE k bs).map (fun vr => (b + 256 * vr.1, vr.2))

theorem decLE_encLE (k : Nat) :
    ∀ (n : Nat) (rest : List Nat), n < 256 ^ k →
      decLE k (encLE k n ++ rest) = some (n, rest) := by
  induction k with
  | zero =>
    intro n rest h
    interval_cases n
    rfl
  | succ k ih =>
    intro n rest h
    have hdiv : n / 256 < 256 ^ k := by
      rw [Nat.div_lt_iff_lt_mul (by norm_num)]
      calc n < 256 ^ (k + 1) := h
      _ = 256 ^ k * 256 := by ring
    show decLE (k + 1) ((n % 256 :: encLE k (n / 256)) ++ rest) =
      some (n, rest)
    rw [List.cons_append]
    show (decLE k (encLE k (n / 256) ++ rest)).map
      (fun vr => (n % 256 + 256 * vr.1, vr.2)) = some (n, rest)
    rw [ih (n / 256) rest hdiv, Option.map_some']
    have heq : n % 256 + 256 * (n / 256) = n := by omega
    rw [heq]

/-- Rust `Vec<u8>` / `String`: `u64` length then the bytes. -/
def encBytes (v : List Nat) : List Nat := encLE 8 v.length ++ v

def decBytes (bs : List Nat) : Option (List Nat × List Nat) :=
  (decLE 8 bs).bind (fun vr =>
    if vr.1 ≤ vr.2.length then some (vr.2.take vr.1, vr.2.drop vr.1)
    else none)

theorem decBytes_encBytes (v rest : List Nat) (h : v.length < 256 ^ 8) :
    decBytes (encBytes v ++ rest) = some (v, rest) := by
  unfold encBytes decBytes
  rw [List.append_assoc, decLE_encLE 8 v.length (v ++ rest) h]
  simp [List.take_left, List.drop_left]

/-- Rust `Option<u64>`: one tag byte then the payload. -/
def encOptU64 : Option Nat → List Nat
  | none => [0]
  | some n => 1 :: encLE 8 n

def decOptU64 : List Nat → Option (Option Nat × List Nat)
  | 0 :: bs => some (none, bs)
  | 1 :: bs => (decLE 8 bs).map (fun vr => (some vr.1, vr.2))
  | _ => none

theorem decOptU64_encOptU64 (t : Option Nat) (rest : List Nat)
    (h : ∀ n, t = some n → n < 256 ^ 8) :
    decOptU64 (encOptU64 t ++ rest) = some (t, rest) := by
  cases t with
  | none => rfl
  | some n =>
    simp only [encOptU64, List.cons_append, decOptU64,
      decLE_encLE 8 n rest (h n rfl), Option.map_some']

/-- Rust `Range<u64>`: `start` then `end`. -/
def encRange (r : Nat × Nat) : List Nat := encLE 8 r.1 ++ encLE 8 r.2

def decRange (bs : List Nat) : Option ((Nat × Nat) × List Nat) :=
  (decLE 8 bs).bind (fun sr =>
    (decLE 8 sr.2).map (fun er => ((sr.1, er.1), er.2)))

theorem decRange_encRange (r : Nat × Nat) (rest : List Nat)
    (h1 : r.1 < 256 ^ 8) (h2 : r.2 < 256 ^ 8) :
    decRange (encRange r ++ rest) = some (r, rest) := by
  unfold encRange decRange
  rw [List.append_assoc, decLE_encLE 8 r.1 _ h1]
  simp [decLE_encLE 8 r.2 rest h2]

/-- Rust `UnwindDataV1` (legacy, no timestamp). -/
structure UnwindDataV1 where
  path : List Nat
  avmaRange : Nat × Nat
  baseAvma : Nat
  baseSvma : Nat
  ehFrameHdr : List Nat
  ehFrameHdrSvma : Nat × Nat
  ehFrame : List Nat
  ehFrameSvma : Nat × Nat
deriving DecidableEq, Repr

/-- Rust `UnwindDataV2` (per-pid, with optional timestamp). -/
structure UnwindDataV2 where
  path : List Nat
  timestamp : Option Nat
  avmaRange : Nat × Nat
  baseAvma : Nat
  baseSvma : Nat
  ehFrameHdr : List Nat
  ehFrameHdrSvma : Nat × Nat
  ehFrame : List Nat
  ehFrameSvma : Nat × Nat
deriving DecidableEq, Repr

/-- Rust `UnwindDataV3` (pid-agnostic). -/
structure UnwindDataV3 where
  path : List Nat
  baseSvma : Nat
  ehFrameHdr : List Nat
  ehFrameHdrSvma : Nat × Nat
  ehFrame : List Nat
  ehFrameSvma : Nat × Nat
deriving DecidableEq, Repr

/-- The tagged union `UnwindDataCompat { V1, V2, V3 }`. -/
inductive UnwindDataCompat
  | v1 (d : UnwindDataV1)
  | v2 (d : UnwindDataV2)
  | v3 (d : UnwindDataV3)
deriving DecidableEq, Repr

/-- Rust `From<UnwindDataV1> for UnwindDataV2`: auto-upgrade with
`timestamp = None`. -/
def v2OfV1 (d : UnwindDataV1) : UnwindDataV2 :=
  ⟨d.path, none, d.avmaRange, d.baseAvma, d.baseSvma, d.ehFrameHdr,
    d.ehFrameHdrSvma, d.ehFrame, d.ehFrameSvma⟩

def encV1 (d : UnwindDataV1) : List Nat :=
  encBytes d.path ++ encRange d.avmaRange ++ encLE 8 d.baseAvma ++
    encLE 8 d.baseSvma ++ encBytes d.ehFrameHdr ++
    encRange d.ehFrameHdrSvma ++ encBytes d.ehFrame ++ encRange d.ehFrameSvma

def encV2 (d : UnwindDataV2) : List Nat :=
  encBytes d.path ++ encOptU64 d.timestamp ++ encRange d.avmaRange ++
    encLE 8 d.baseAvma ++ encLE 8 d.baseSvma ++ encBytes d.ehFrameHdr ++
    encRange d.ehFrameHdrSvma ++ encBytes d.ehFrame ++ encRange d.ehFrameSvma

def encV3 (d : UnwindDataV3) : List Nat :=
  encBytes d.path ++ encLE 8 d.baseSvma ++ encBytes d.ehFrameHdr ++
    encRange d.ehFrameHdrSvma ++ encBytes d.ehFrame ++ encRange d.ehFrameSvma

/-- Rust `bincode::serialize` of the tagged union: `u32` variant index then the
variant payload, fields in declaration order. -/
def serializeCompat : UnwindDataCompat → List Nat
  | .v1 d => encLE 4 0 ++ encV1 d
  | .v2 d => encLE 4 1 ++ encV2 d
  | .v3 d => encLE 4 2 ++ encV3 d

def decV1 (bs : List Nat) : Option (UnwindDataV1 × List Nat) :=
  (decBytes bs).bind fun p1 =>
  (decRange p1.2).bind fun p2 =>
  (decLE 8 p2.2).bind fun p3 =>
  (decLE 8 p3.2).bind fun p4 =>
  (decBytes p4.2).bind fun p5 =>
  (decRange p5.2).bind fun p6 =>
  (decBytes p6.2).bind fun p7 =>
  (decRange p7.2).map fun p8 =>
    (⟨p1.1, p2.1, p3.1, p4.1, p5.1, p6.1, p7.1, p8.1⟩, p8.2)

def decV2 (bs : List Nat) : Option (UnwindDataV2 × List Nat) :=
  (decBytes bs).bind fun p1 =>
  (decOptU64 p1.2).bind fun pt =>
  (decRange pt.2).bind fun p2 =>
  (decLE 8 p2.2).bind fun p3 =>
  (decLE 8 p3.2).bind fun p4 =>
  (decBytes p4.2).bind fun p5 =>
  (decRange p5.2).bind fun p6 =>
  (decBytes p6.2).bind fun p7 =>
  (decRange p7.2).map fun p8 =>
    (⟨p1.1, pt.1, p2.1, p3.1, p4.1, p5.1, p6.1, p7.1, p8.1⟩, p8.2)

def decV3 (bs : List Nat) : Option (UnwindDataV3 × List Nat) :=
  (decBytes bs).bind fun p1 =>
  (decLE 8 p1.2).bind fun p4 =>
  (decBytes p4.2).bind fun p5 =>
  (decRange p5.2).bind fun p6 =>
  (decBytes p6.2).bind fun p7 =>
  (decRange p7.2).map fun p8 =>
    (⟨p1.1, p4.1, p5.1, p6.1, p7.1, p8.1⟩, p8.2)

/-- Rust `bincode::deserialize::<UnwindDataCompat>`. -/
def deserializeCompat (bs : List Nat) : Option UnwindDataCompat :=
  (decLE 4 bs).bind fun tr =>
    if tr.1 = 0 then (decV1 tr.2).map (fun vr => .v1 vr.1)
    else if tr.1 = 1 then (decV2 tr.2).map (fun vr => .v2 vr.1)
    else if tr.1 = 2 then (decV3 tr.2).map (fun vr => .v3 vr.1)
    else none

/-- Rust `UnwindDataV3::parse`: hard error on V1 and V2 payloads. -/
def parseV3 (bs : List Nat) : Except String UnwindDataV3 :=
  match deserializeCompat bs with
  | some (.v1 _) => .error "Cannot parse V1 unwind data as V3 (breaking changes)"
  | some (.v2 _) => .error "Cannot parse V2 unwind data as V3 (breaking changes)"
  | some (.v3 d) => .ok d
  | none => .error "deserialize error"

/-- Rust `UnwindDataV2::parse`: V1 auto-upgrades, V3 is a hard error. -/
def parseV2 (bs : List Nat) : Except String UnwindDataV2 :=
  match deserializeCompat bs with
  | some (.v1 d) => .ok (v2OfV1 d)
  | some (.v2 d) => .ok d
  | some (.v3 _) => .error "Cannot parse V3 unwind data as V2 (missing per-pid fields)"
  | none => .error "deserialize error"

/-- All integer fields and lengths fit in a `u64`. -/
def UnwindDataV1.wf (d : UnwindDataV1) : Prop :=
  d.path.length < 256 ^ 8 ∧ d.avmaRange.1 < 256 ^ 8 ∧
  d.avmaRange.2 < 256 ^ 8 ∧ d.baseAvma < 256 ^ 8 ∧ d.baseSvma < 256 ^ 8 ∧
  d.ehFrameHdr.length < 256 ^ 8 ∧ d.ehFrameHdrSvma.1 < 256 ^ 8 ∧
  d.ehFrameHdrSvma.2 < 256 ^ 8 ∧ d.ehFrame.length < 256 ^ 8 ∧
  d.ehFrameSvma.1 < 256 ^ 8 ∧ d.ehFrameSvma.2 < 256 ^ 8

def UnwindDataV3.wf (d : UnwindDataV3) : Prop :=
  d.path.length < 256 ^ 8 ∧ d.baseSvma < 256 ^ 8 ∧
  d.ehFrameHdr.length < 256 ^ 8 ∧ d.ehFrameHdrSvma.1 < 256 ^ 8 ∧
  d.ehFrameHdrSvma.2 < 256 ^ 8 ∧ d.ehFrame.length < 256 ^ 8 ∧
  d.ehFrameSvma.1 < 256 ^ 8 ∧ d.ehFrameSvma.2 < 256 ^ 8

theorem decV1_encV1 (d : UnwindDataV1) (rest : List Nat) (h : d.wf) :
    decV1 (encV1 d ++ rest) = some (d, rest) := by
  obtain ⟨h1, h2, h3, h4, h5, h6, h7, h8, h9, h10, h11⟩ := h
  unfold encV1 decV1
  simp only [List.append_assoc]
  rw [decBytes_encBytes _ _ h1]
  simp only [Option.some_bind]
  rw [decRange_encRange _ _ h2 h3]
  simp only [Option.some_bind]
  rw [decLE_encLE 8 _ _ h4]
  simp only [Option.some_bind]
  rw [decLE_encLE 8 _ _ h5]
  simp only [Option.some_bind]
  rw [decBytes_encBytes _ _ h6]
  simp only [Option.some_bind]
  rw [decRange_encRange _ _ h7 h8]
  simp only [Option.some_bind]
  rw [decBytes_encBytes _ _ h9]
  simp only [Option.some_bind]
  rw [decRange_encRange _ _ h10 h11]
  simp only [Option.map_some']

theorem decV3_encV3 (d : UnwindDataV3) (rest : List Nat) (h : d.wf) :
    decV3 (encV3 d ++ rest) = some (d, rest) := by
  obtain ⟨h1, h2, h3, h4, h5, h6, h7, h8⟩ := h
  unfold encV3 decV3
  simp only [List.append_assoc]
  rw [decBytes_encBytes _ _ h1]
  simp only [Option.some_bind]
  rw [decLE_encLE 8 _ _ h2]
  simp only [Option.some_bind]
  rw [decBytes_encBytes _ _ h3]
  simp only [Option.some_bind]
  rw [decRange_encRange _ _ h4 h5]
  simp only [Option.some_bind]
  rw [decBytes_encBytes _ _ h6]
  simp only [Option.some_bind]
  rw [decRange_encRange _ _ h7 h8]
  simp only [Option.map_some']

theorem deserialize_serialize_v1 (d : UnwindDataV1) (h : d.wf) :
    deserializeCompat (serializeCompat (.v1 d)) = some (.v1 d) := by
  unfold serializeCompat deserializeCompat
  rw [decLE_encLE 4 0 (encV1 d) (by norm_num)]
  have hv := decV1_encV1 d [] h
  rw [List.append_nil] at hv
  simp [hv]

theorem deserialize_serialize_v3 (d : UnwindDataV3) (h : d.wf) :
    deserializeCompat (serializeCompat (.v3 d)) = some (.v3 d) := by
  unfold serializeCompat deserializeCompat
  rw [decLE_encLE 4 2 (encV3 d) (by norm_num)]
  have hv := decV3_encV3 d [] h
  rw [List.append_nil] at hv
  simp [hv]

theorem deserialize_serialize_v2_shape (d : UnwindDataV2) :
    deserializeCompat (serializeCompat (.v2 d)) = none ∨
    ∃ d2, deserializeCompat (serializeCompat (.v2 d)) = some (.v2 d2) := by
  unfold serializeCompat deserializeCompat
  rw [decLE_encLE 4 1 (encV2 d) (by norm_num)]
  cases hd : decV2 (encV2 d) with
  | none => left; simp [hd]
  | some vr => right; exact ⟨vr.1, by simp [hd]⟩

/-- C7: version-compatibility contract of the unwind codec.  V3
round-trips through `UnwindDataV3::parse`; serialized V1 and V2 are hard
errors when parsed as V3; serialized V3 is a hard error when parsed as V2;
serialized V1 parses as V2 into the auto-upgrade with `timestamp = None`
and every other field preserved. -/
theorem unwind_codec_compat :
    (∀ d : UnwindDataV3, d.wf → parseV3 (serializeCompat (.v3 d)) = .ok d) ∧
    (∀ d : UnwindDataV1, d.wf →
       ∃ msg, parseV3 (serializeCompat (.v1 d)) = .error msg) ∧
    (∀ d : UnwindDataV2,
       ∃ msg, parseV3 (serializeCompat (.v2 d)) = .error msg) ∧
    (∀ d : UnwindDataV3, d.wf →
       ∃ msg, parseV2 (serializeCompat (.v3 d)) = .error msg) ∧
    (∀ d : UnwindDataV1, d.wf →
       parseV2 (serializeCompat (.v1 d)) = .ok (v2OfV1 d)) ∧
    (∀ d : UnwindDataV1,
       (v2OfV1 d).timestamp = none ∧ (v2OfV1 d).path = d.path ∧
       (v2OfV1 d).avmaRange = d.avmaRange ∧
       (v2OfV1 d).baseAvma = d.baseAvma ∧
       (v2OfV1 d).baseSvma = d.baseSvma ∧
       (v2OfV1 d).ehFrameHdr = d.ehFrameHdr ∧
       (v2OfV1 d).ehFrameHdrSvma = d.ehFrameHdrSvma ∧
       (v2OfV1 d).ehFrame = d.ehFrame ∧
       (v2OfV1 d).ehFrameSvma = d.ehFrameSvma) := by
  refine ⟨?_, ?_, ?_, ?_, ?_, ?_⟩
  · intro d h
    unfold parseV3
    rw [deserialize_serialize_v3 d h]
  · intro d h
    unfold parseV3
    rw [deserialize_serialize_v1 d h]
    exact ⟨_, rfl⟩
  · intro d
    unfold parseV3
    rcases deserialize_serialize_v2_shape d with hshape | ⟨d2, hshape⟩ <;>
      rw [hshape]
    · exact ⟨_, rfl⟩
    · exact ⟨_, rfl⟩
  · intro d h
    unfold parseV2
    rw [deserialize_serialize_v3 d h]
    exact ⟨_, rfl⟩
  · intro d h
    unfold parseV2
    rw [deserialize_serialize_v1 d h]
  · intro d
    exact ⟨rfl, rfl, rfl, rfl, rfl, rfl, rfl, rfl, rfl⟩

/-- Witness for `unwind_codec_compat`: the sample fixture round-trips as V3
and a sample V1 upgrades to V2 with `timestamp = None`. -/
theorem unwind_codec_compat_witness :
    parseV3 (serializeCompat (.v3 ⟨[47, 108], 0, [1, 2, 3, 4], (256, 512),
      [5, 6, 7, 8], (512, 768)⟩)) =
      .ok ⟨[47, 108], 0, [1, 2, 3, 4], (256, 512), [5, 6, 7, 8], (512, 768)⟩ ∧
    parseV2 (serializeCompat (.v1 ⟨[47], (4096, 8192), 4096, 0, [1], (1, 2),
      [2], (3, 4)⟩)) =
      .ok (v2OfV1 ⟨[47], (4096, 8192), 4096, 0, [1], (1, 2), [2], (3, 4)⟩) :=
  ⟨unwind_codec_compat.1 ⟨[47, 108], 0, [1, 2, 3, 4], (256, 512),
      [5, 6, 7, 8], (512, 768)⟩ (by constructor <;> norm_num),
    unwind_codec_compat.2.2.2.2.1 ⟨[47], (4096, 8192), 4096, 0, [1], (1, 2),
      [2], (3, 4)⟩ (by constructor <;> norm_num)⟩

/-! ### Artifact writing (`mod.rs: BenchmarkData::save_to`,
`save_artifacts.rs`) -/

/-- A file written into the profile folder, identified by kind and key. -/
inductive ArtifactFile
  | executionTimestamps
  | symbolsMapFile (key : String)
  | unwindDataFile (key : String)
  | perfMapFile (pid : Int)
  | perfMetadata
deriving DecidableEq, Repr

/-- Rust `FifoBenchmarkData`: integration identity, tracked benchmark PIDs,
exec-harness flag. -/
structure FifoBenchmarkData where
  integration : Option (String × String)
  benchPids : Finset Int
  isExecHarness : Bool

/-- Rust `BenchmarkDataSaveError`. -/
inductive BenchmarkDataSaveError
  | missingIntegration
  | failedToParsePerfFile
  | failedToHarvestJitDumps
deriving DecidableEq, Repr

instance {ε α : Type} [DecidableEq ε] [DecidableEq α] :
    DecidableEq (Except ε α) := fun a b =>
  match a, b with
  | .ok x, .ok y =>
    if h : x = y then isTrue (by rw [h]) else isFalse (by
      intro hc; injection hc; contradiction)
  | .ok _, .error _ => isFalse (by intro hc; injection hc)
  | .error _, .ok _ => isFalse (by intro hc; injection hc)
  | .error e1, .error e2 =>
    if h : e1 = e2 then isTrue (by rw [h]) else isFalse (by
      intro hc; injection hc; contradiction)

/-- The files written by `save_artifacts`: a `<key>.symbols.map` per module
with symbols, a `<key>.unwind_data` per module with unwind data, and a
`<key>.unwind_data` per JIT entry (keyed through the same
`get_or_insert_key` table, pre-seeded by `register_paths`). -/
def saveArtifactsFiles (index : List (String × LoadedModule))
    (jit : List (Int × List (UnwindData × ProcessUnwindData))) :
    List ArtifactFile :=
  let st := registerPaths [] (index.map (·.1))
  let symFiles := (index.filter (fun e => e.2.moduleSymbols.isSome)).map
    (fun e => ArtifactFile.symbolsMapFile ((lookupKey st e.1).getD ""))
  let unwFiles := (index.filter (fun e => e.2.unwindData.isSome)).map
    (fun e => ArtifactFile.unwindDataFile ((lookupKey st e.1).getD ""))
  let jitAcc := jit.foldl (fun acc e =>
    e.2.foldl (fun acc2 ud =>
      let kst := getOrInsertKey acc2.2 ud.1.path
      (acc2.1 ++ [ArtifactFile.unwindDataFile kst.1], kst.2)) acc)
    (([] : List ArtifactFile), st)
  symFiles ++ unwFiles ++ jitAcc.1

/-- Rust `BenchmarkData::save_to`, tracking the list of files written, in source
order: the execution-timestamps artifact is saved first (before any error
can be returned), then the perf file is parsed, JIT dumps are harvested
(writing the per-PID perf maps), `save_artifacts` writes the deduplicated
symbol and unwind files, and only then is `perf.metadata` built — failing
with `MissingIntegration` when `fifo_data.integration` is `None`.
The perf-capture parse and the JIT harvest are oracles (`none` = failure). -/
def saveTo (fifoData : FifoBenchmarkData)
    (records : Option (List PerfRecord)) (o : ElfOracle)
    (jitResult : Option (List (Int × List (UnwindData × ProcessUnwindData)))) :
    Except BenchmarkDataSaveError Unit × List ArtifactFile :=
  let files0 := [ArtifactFile.executionTimestamps]
  let pidFilter := if fifoData.isExecHarness then PidFilter.all
    else PidFilter.trackedPids fifoData.benchPids
  match records with
  | none => (.error .failedToParsePerfFile, files0)
  | some recs =>
    let out := parseForMemmap2 o recs pidFilter
    match jitResult with
    | none => (.error .failedToHarvestJitDumps, files0)
    | some jit =>
      let files1 := files0 ++ jit.map (fun e => ArtifactFile.perfMapFile e.1)
      let files2 := files1 ++ saveArtifactsFiles out.loadedModulesByPath jit
      match fifoData.integration with
      | none => (.error .missingIntegration, files2)
      | some _ => (.ok (), files2 ++ [ArtifactFile.perfMetadata])

theorem jitFiles_shape_inner (entries : List (UnwindData × ProcessUnwindData)) :
    ∀ (acc : List ArtifactFile × List (String × String)),
      (∀ x ∈ acc.1, ∃ k, x = ArtifactFile.unwindDataFile k) →
      ∀ x ∈ (entries.foldl (fun acc2 ud =>
          ((acc2.1 ++ [ArtifactFile.unwindDataFile
             (getOrInsertKey acc2.2 ud.1.path).1],
            (getOrInsertKey acc2.2 ud.1.path).2) :
            List ArtifactFile × List (String × String))) acc).1,
        ∃ k, x = ArtifactFile.unwindDataFile k := by
  induction entries with
  | nil => intro acc h; exact h
  | cons ud rest ih =>
    intro acc h
    refine ih _ ?_
    intro x hx
    rcases List.mem_append.mp hx with h2 | h2
    · exact h x h2
    · simp only [List.mem_singleton] at h2
      exact ⟨_, h2⟩

theorem jitFiles_shape (jit : List (Int × List (UnwindData × ProcessUnwindData))) :
    ∀ (acc : List ArtifactFile × List (String × String)),
      (∀ x ∈ acc.1, ∃ k, x = ArtifactFile.unwindDataFile k) →
      ∀ x ∈ (jit.foldl (fun acc e =>
          e.2.foldl (fun acc2 ud =>
            ((acc2.1 ++ [ArtifactFile.unwindDataFile
               (getOrInsertKey acc2.2 ud.1.path).1],
              (getOrInsertKey acc2.2 ud.1.path).2) :
              List ArtifactFile × List (String × String))) acc) acc).1,
        ∃ k, x = ArtifactFile.unwindDataFile k := by
  induction jit with
  | nil => intro acc h; exact h
  | cons e rest ih =>
    intro acc h
    exact ih _ (jitFiles_shape_inner e.2 acc h)

theorem perfMetadata_not_in_saveArtifactsFiles
    (index : List (String × LoadedModule))
    (jit : List (Int × List (UnwindData × ProcessUnwindData))) :
    ArtifactFile.perfMetadata ∉ saveArtifactsFiles index jit := by
  intro hmem
  simp only [saveArtifactsFiles] at hmem
  rcases List.mem_append.mp hmem with h2 | h2
  · rcases List.mem_append.mp h2 with h3 | h3
    · obtain ⟨e, _, he⟩ := List.mem_map.mp h3
      exact absurd he.symm (by simp)
    · obtain ⟨e, _, he⟩ := List.mem_map.mp h3
      exact absurd he.symm (by simp)
  · obtain ⟨k, hk⟩ := jitFiles_shape jit _ (by simp) _ h2
    exact absurd hk (by simp)

/-- C1 (amended): when `integration` is `None` (and perf-file parsing and
JIT harvesting succeed), `save_to` returns `MissingIntegration` and writes
no `perf.metadata` — but the execution-timestamps artifact (written first,
unconditionally) and the `save_artifacts` files are already on disk. -/
theorem missing_integration_behavior (fifoData : FifoBenchmarkData)
    (records : Option (List PerfRecord)) (o : ElfOracle)
    (jitResult : Option (List (Int × List (UnwindData × ProcessUnwindData))))
    (hint : fifoData.integration = none) (hrec : records.isSome = true)
    (hjit : jitResult.isSome = true) :
    (saveTo fifoData records o jitResult).1 =
      .error .missingIntegration ∧
    ArtifactFile.perfMetadata ∉ (saveTo fifoData records o jitResult).2 ∧
    ArtifactFile.executionTimestamps ∈ (saveTo fifoData records o jitResult).2 := by
  obtain ⟨recs, hrecs⟩ := Option.isSome_iff_exists.mp hrec
  obtain ⟨jit, hjits⟩ := Option.isSome_iff_exists.mp hjit
  subst hrecs; subst hjits
  refine ⟨by simp [saveTo, hint], ?_, by simp [saveTo, hint]⟩
  intro hmem
  simp only [saveTo, hint] at hmem
  rcases List.mem_append.mp hmem with h2 | h2
  · rcases List.mem_append.mp h2 with h3 | h3
    · simp at h3
    · obtain ⟨e, _, he⟩ := List.mem_map.mp h3
      exact absurd he.symm (by simp)
  · exact perfMetadata_not_in_saveArtifactsFiles _ _ h2

/-- Witness for `missing_integration_behavior` at a concrete input. -/
theorem missing_integration_behavior_witness :
    (saveTo ⟨none, ∅, true⟩ (some [.mmap2 1 0 4096 0 4 "/x"]) recomputeOracle
      (some [])).1 = .error .missingIntegration ∧
    ArtifactFile.perfMetadata ∉
      (saveTo ⟨none, ∅, true⟩ (some [.mmap2 1 0 4096 0 4 "/x"])
        recomputeOracle (some [])).2 ∧
    ArtifactFile.executionTimestamps ∈
      (saveTo ⟨none, ∅, true⟩ (some [.mmap2 1 0 4096 0 4 "/x"])
        recomputeOracle (some [])).2 :=
  missing_integration_behavior ⟨none, ∅, true⟩
    (some [.mmap2 1 0 4096 0 4 "/x"]) recomputeOracle (some []) rfl rfl rfl

/-- C1 counterexample: with `integration = None`, `save_to` returns
`MissingIntegration` but files *have* been written: the
execution-timestamps artifact and a `<key>.unwind_data` file for the
mapped module are both in the written set. -/
theorem missing_integration_counterexample :
    saveTo ⟨none, ∅, true⟩ (some [.mmap2 1 0 4096 0 4 "/x"]) recomputeOracle
      (some []) =
      (.error .missingIntegration,
        [ArtifactFile.executionTimestamps,
         ArtifactFile.unwindDataFile "0__x"]) := by
  decide

end Codspeed
